import Mathlib

/-!
# Task manager (`src/main.c++`): embedding and properties

The class `TaskManager` of `src/main.c++` is embedded as pure functions.

* `std::string` is `String` (a list of characters); `int` is `Int`, with the
  32-bit two's complement wrap `wrapInt` applied where the program computes
  `id + 1` and `nextTaskId++`.
* A stream is the list of characters still to be read; `getline` is
  `std::getline(stream, str, delim)`.
* The file `filename` is a `File`: `none` when it cannot be opened, `some text`
  otherwise.
* An uncaught exception (`std::stoi` throws) and a loop that never ends are
  both the result `none`.
* `std::sort` is a parameter `sort` of `displayTasks`; what the C++ standard
  promises about it is `IsStdSort`, and the `std::sort` of libstdc++ is
  `librarySort`.
* The console output is the list of the texts written to `std::cout`, one
  entry for each output statement. It is given for `displayTasks` and
  `deleteTask`; for `addTask`, `editTask` and `markTaskCompleted` only the
  store after the call is given.
* `std::cin` is the list of lines `std::getline` still has to return, and the
  number `std::cin >> taskId` extracts is an argument of the operation.
-/

set_option autoImplicit false

/-! ## Integers and strings -/

/-- `INT_MAX` of a 32-bit `int`. -/
def INT_MAX : Int := 2147483647

/-- `INT_MIN` of a 32-bit `int`. -/
def INT_MIN : Int := -2147483648

/-- Result of an `int` computation whose mathematical value is `x`, on a 32-bit
two's complement machine. -/
def wrapInt (x : Int) : Int := (x + 2147483648) % 4294967296 - 2147483648

/-- The predicate `isspace` of the C locale. -/
def isspace (c : Char) : Bool :=
  c == ' ' || c == '\t' || c == '\n' || c == '\x0b' || c == '\x0c' || c == '\r'

/-- Value of a string of decimal digits, most significant digit first. -/
def digitsValue (ds : List Char) : Nat :=
  ds.foldl (fun a c => 10 * a + (c.toNat - 48)) 0

/-- Sign and remaining characters, as `strtol` reads an optional sign. -/
def readSign : List Char → Bool × List Char
  | [] => (false, [])
  | c :: r => if c = '-' then (true, r) else if c = '+' then (false, r) else (false, c :: r)

/-- The call `std::stoi(str)`: leading white space is skipped, an optional sign
and the longest run of decimal digits are read, trailing characters are
ignored. `none` when it throws: `std::invalid_argument` (no digit) or
`std::out_of_range` (the value is no `int`). -/
def stoi (str : String) : Option Int :=
  let s := readSign (str.data.dropWhile isspace)
  let ds := s.2.takeWhile Char.isDigit
  if ds = [] then none
  else
    let v : Int := digitsValue ds
    let r : Int := if s.1 then -v else v
    if INT_MIN ≤ r ∧ r ≤ INT_MAX then some r else none

/-- The call `std::to_string(n)` for an `int`. -/
def to_string (n : Int) : String :=
  if n < 0 then ⟨'-' :: Nat.toDigits 10 n.natAbs⟩ else ⟨Nat.toDigits 10 n.toNat⟩

/-- Characters `std::getline` extracts up to the delimiter, and the characters
left in the stream after the delimiter has been discarded. -/
def getlineChars : List Char → Char → List Char × List Char
  | [], _ => ([], [])
  | c :: cs, delim =>
    if c = delim then ([], cs)
    else ((c :: (getlineChars cs delim).1), (getlineChars cs delim).2)

/-- The call `std::getline(stream, str, delim)` on a string stream whose unread
part is `stream`: the extracted `str` and the new unread part. On an exhausted
stream the extraction fails and `str` is the empty string it was before. -/
def getline (stream : String) (delim : Char) : String × String :=
  (⟨(getlineChars stream.data delim).1⟩, ⟨(getlineChars stream.data delim).2⟩)

/-- The lines `while (std::getline(file, line))` reads from a file with the
given content, in order: a line ends at `'\n'` or at the end of the file, and
the loop stops when nothing is left to read. -/
def readLines : List Char → List String
  | [] => []
  | c :: cs =>
    if c = '\n' then "" :: readLines cs
    else
      match readLines cs with
      | [] => [⟨[c]⟩]
      | l :: ls => ⟨c :: l.data⟩ :: ls

/-! ## The `std::sort` of libstdc++

The functions of `bits/stl_algo.h` and `bits/stl_heap.h` that `std::sort`
runs, on a list for the range: up to 16 elements are sorted by insertion; a
longer range is first partitioned around the median of three elements (or
heap-sorted once the depth limit is used up) and then finished by insertion.
A position outside the list, which the functions never read on a range the
program passes, and a loop that uses up its fuel are `none`. -/

/-- The function `std::__lg`: the position of the highest set bit. -/
def lgAux : Nat → Nat → Nat
  | 0, _ => 0
  | fuel + 1, n => if n < 2 then 0 else lgAux fuel (n / 2) + 1

/-- The call `std::__lg(n)`. -/
def lg (n : Nat) : Nat := lgAux n n

/-- The call `std::iter_swap(first + i, first + j)`. -/
def iterSwap {α : Type} (arr : List α) (i j : Nat) : Option (List α) :=
  match arr.get? i, arr.get? j with
  | some x, some y => some ((arr.set i y).set j x)
  | _, _ => none

/-- The function `std::__move_median_to_first`, on positions. -/
def moveMedianToFirst {α : Type} (comp : α → α → Bool) (arr : List α) (result a b c : Nat) :
    Option (List α) :=
  match arr.get? a, arr.get? b, arr.get? c with
  | some va, some vb, some vc =>
    if comp va vb then
      if comp vb vc then iterSwap arr result b
      else if comp va vc then iterSwap arr result c
      else iterSwap arr result a
    else if comp va vc then iterSwap arr result a
    else if comp vb vc then iterSwap arr result c
    else iterSwap arr result b
  | _, _, _ => none

/-- The loop `while (comp(first, pivot)) ++first;` of `std::__unguarded_partition`. -/
def scanUp {α : Type} (comp : α → α → Bool) (arr : List α) (pivot : Nat) : Nat → Nat → Option Nat
  | 0, _ => none
  | fuel + 1, first =>
    match arr.get? first, arr.get? pivot with
    | some x, some p => if comp x p then scanUp comp arr pivot fuel (first + 1) else some first
    | _, _ => none

/-- The loop `while (comp(pivot, last)) --last;` of `std::__unguarded_partition`. -/
def scanDown {α : Type} (comp : α → α → Bool) (arr : List α) (pivot : Nat) : Nat → Nat → Option Nat
  | 0, _ => none
  | fuel + 1, last =>
    match arr.get? pivot, arr.get? last with
    | some p, some x =>
      if comp p x then
        if last = 0 then none else scanDown comp arr pivot fuel (last - 1)
      else some last
    | _, _ => none

/-- The function `std::__unguarded_partition`, on positions: the array after
the call and the position returned. -/
def unguardedPartition {α : Type} (comp : α → α → Bool) (pivot : Nat) :
    Nat → List α → Nat → Nat → Option (List α × Nat)
  | 0, _, _, _ => none
  | fuel + 1, arr, first, last =>
    match scanUp comp arr pivot (arr.length + 1) first with
    | none => none
    | some first1 =>
      if last = 0 then none
      else
        match scanDown comp arr pivot (arr.length + 1) (last - 1) with
        | none => none
        | some last1 =>
          if first1 < last1 then
            match iterSwap arr first1 last1 with
            | none => none
            | some arr1 => unguardedPartition comp pivot fuel arr1 (first1 + 1) last1
          else some (arr, first1)

/-- The function `std::__unguarded_partition_pivot`, on positions. -/
def unguardedPartitionPivot {α : Type} (comp : α → α → Bool) (arr : List α) (first last : Nat) :
    Option (List α × Nat) :=
  let mid := first + (last - first) / 2
  match moveMedianToFirst comp arr first (first + 1) mid (last - 1) with
  | none => none
  | some arr1 => unguardedPartition comp first (arr1.length + 1) arr1 (first + 1) last

/-- The function `std::__push_heap`, on a heap that starts at position 0. -/
def pushHeap {α : Type} (comp : α → α → Bool) (topIndex : Nat) (value : α) :
    Nat → List α → Nat → Option (List α)
  | 0, _, _ => none
  | fuel + 1, arr, holeIndex =>
    let parent := (holeIndex - 1) / 2
    if holeIndex > topIndex then
      match arr.get? parent with
      | none => none
      | some p =>
        if comp p value then pushHeap comp topIndex value fuel (arr.set holeIndex p) parent
        else some (arr.set holeIndex value)
    else some (arr.set holeIndex value)

/-- The first loop of `std::__adjust_heap`: the array, the hole and the second
child when it ends. -/
def adjustHeapLoop {α : Type} (comp : α → α → Bool) (len : Nat) :
    Nat → List α → Nat → Nat → Option (List α × Nat × Nat)
  | 0, _, _, _ => none
  | fuel + 1, arr, holeIndex, secondChild =>
    if secondChild < (len - 1) / 2 then
      let sc := 2 * (secondChild + 1)
      match arr.get? sc, arr.get? (sc - 1) with
      | some a, some b =>
        let sc1 := if comp a b then sc - 1 else sc
        match arr.get? sc1 with
        | none => none
        | some v => adjustHeapLoop comp len fuel (arr.set holeIndex v) sc1 sc1
      | _, _ => none
    else some (arr, holeIndex, secondChild)

/-- The function `std::__adjust_heap`, on a heap that starts at position 0. -/
def adjustHeap {α : Type} (comp : α → α → Bool) (arr : List α) (holeIndex len : Nat) (value : α) :
    Option (List α) :=
  match adjustHeapLoop comp len (arr.length + 1) arr holeIndex holeIndex with
  | none => none
  | some (arr1, hole1, sc1) =>
    if len % 2 = 0 ∧ sc1 = (len - 2) / 2 then
      let sc2 := 2 * (sc1 + 1)
      match arr1.get? (sc2 - 1) with
      | none => none
      | some v =>
        pushHeap comp holeIndex value (arr1.length + 1) (arr1.set hole1 v) (sc2 - 1)
    else pushHeap comp holeIndex value (arr1.length + 1) arr1 hole1

/-- The function `std::__pop_heap(first, last, result)` with `first` at
position 0. -/
def popHeap {α : Type} (comp : α → α → Bool) (arr : List α) (last result : Nat) : Option (List α) :=
  match arr.get? result, arr.get? 0 with
  | some value, some top => adjustHeap comp (arr.set result top) 0 last value
  | _, _ => none

/-- The loop of `std::__make_heap`, from `parent` down to 0. -/
def makeHeapLoop {α : Type} (comp : α → α → Bool) (len : Nat) : Nat → List α → Option (List α)
  | parent, arr =>
    match arr.get? parent with
    | none => none
    | some value =>
      match adjustHeap comp arr parent len value with
      | none => none
      | some arr1 =>
        match parent with
        | 0 => some arr1
        | p + 1 => makeHeapLoop comp len p arr1

/-- The function `std::__make_heap` on the whole list. -/
def makeHeap {α : Type} (comp : α → α → Bool) (arr : List α) : Option (List α) :=
  if arr.length < 2 then some arr
  else makeHeapLoop comp arr.length ((arr.length - 2) / 2) arr

/-- The function `std::__sort_heap` on the first `last` elements. -/
def sortHeap {α : Type} (comp : α → α → Bool) : Nat → List α → Option (List α)
  | 0, arr => some arr
  | last + 1, arr =>
    if last + 1 > 1 then
      match popHeap comp arr last last with
      | none => none
      | some arr1 => sortHeap comp last arr1
    else some arr

/-- The call `std::__partial_sort(first, last, last)` on the positions from
`first` up to `last`: a heap is made of them and sorted. -/
def partialSort {α : Type} (comp : α → α → Bool) (arr : List α) (first last : Nat) : Option (List α) :=
  let range := (arr.drop first).take (last - first)
  match makeHeap comp range with
  | none => none
  | some heap =>
    match sortHeap comp heap.length heap with
    | none => none
    | some sorted => some (arr.take first ++ sorted ++ arr.drop last)

/-- The function `std::__introsort_loop`, on positions. -/
def introsortLoop {α : Type} (comp : α → α → Bool) :
    Nat → List α → Nat → Nat → Nat → Option (List α)
  | 0, _, _, _, _ => none
  | fuel + 1, arr, first, last, depthLimit =>
    if last - first > 16 then
      if depthLimit = 0 then partialSort comp arr first last
      else
        match unguardedPartitionPivot comp arr first last with
        | none => none
        | some (arr1, cut) =>
          match introsortLoop comp fuel arr1 cut last (depthLimit - 1) with
          | none => none
          | some arr2 => introsortLoop comp fuel arr2 first cut (depthLimit - 1)
    else some arr

/-- The function `std::__unguarded_linear_insert` for the value `val` at a
position: the argument holds the elements in front of the position, the
nearest first, and the result holds them with `val` put in, the nearest
first. `none` when the loop passes the first element. -/
def unguardedLinearInsert {α : Type} (comp : α → α → Bool) (val : α) : List α → Option (List α)
  | [] => none
  | next :: front =>
    if comp val next then (unguardedLinearInsert comp val front).map (fun l => next :: l)
    else some (val :: next :: front)

/-- The body of the loop of `std::__insertion_sort` for the value `val`: `done`
holds the elements in front of it, the nearest first. -/
def insertionStep {α : Type} (comp : α → α → Bool) (done : List α) (val : α) : Option (List α) :=
  match done.getLast? with
  | none => none
  | some first =>
    if comp val first then some (done ++ [val])
    else unguardedLinearInsert comp val done

/-- The function `std::__insertion_sort` on the whole list: the elements in
reverse order when it ends. -/
def insertionSortRev {α : Type} (comp : α → α → Bool) : List α → Option (List α)
  | [] => some []
  | a :: rest => rest.foldlM (insertionStep comp) [a]

/-- The function `std::__final_insertion_sort` on the whole list. -/
def finalInsertionSort {α : Type} (comp : α → α → Bool) (arr : List α) : Option (List α) :=
  if arr.length > 16 then
    match insertionSortRev comp (arr.take 16) with
    | none => none
    | some done =>
      ((arr.drop 16).foldlM (fun d val => unguardedLinearInsert comp val d) done).map
        List.reverse
  else (insertionSortRev comp arr).map List.reverse

/-- The call `std::sort(first, last, comp)` as libstdc++ has it, on the whole
list. `none` when a position outside the list is read. -/
def stdSort {α : Type} (comp : α → α → Bool) (arr : List α) : Option (List α) :=
  match arr with
  | [] => some []
  | _ :: _ =>
    match introsortLoop comp (arr.length + 1) arr 0 arr.length (lg arr.length * 2) with
    | none => none
    | some arr1 => finalInsertionSort comp arr1

/-! ## Task records -/

namespace TaskManager

/-- The function `getPriorityRank`. -/
def getPriorityRank (priority : String) : Int :=
  if priority = "High" then 3
  else if priority = "Medium" then 2
  else if priority = "Low" then 1
  else 1

/-- The record `struct Task`. -/
structure Task where
  description : String
  priority : String
  isCompleted : Bool
  id : Int
  deriving DecidableEq

namespace Task

/-- The comparison `Task::comparePriority`. -/
def comparePriority (a b : Task) : Bool :=
  decide (getPriorityRank a.priority > getPriorityRank b.priority)

/-- The method `Task::toFileString`. -/
def toFileString (t : Task) : String :=
  t.description ++ "|" ++ t.priority ++ "|" ++
    (if t.isCompleted then "1" else "0") ++ "|" ++ to_string t.id

/-- The function `Task::fromFileString`; `none` when `std::stoi` throws. -/
def fromFileString (line : String) : Option Task :=
  let f1 := getline line '|'
  let f2 := getline f1.2 '|'
  let f3 := getline f2.2 '|'
  let f4 := getline f3.2 '\n'
  match stoi f4.1 with
  | none => none
  | some n =>
    some { description := f1.1, priority := f2.1, isCompleted := decide (f3.1 = "1"), id := n }

end Task

end TaskManager

/-! ## The store and its file -/

/-- The data members `tasks` and `nextTaskId` of `class TaskManager`. -/
structure TaskManager where
  tasks : List TaskManager.Task
  nextTaskId : Int
  deriving DecidableEq

/-- The file `filename`: `none` when it cannot be opened. -/
abbrev File := Option String

namespace TaskManager

/-- Text `saveToFile` writes: one `toFileString` line for each task, each
followed by `std::endl`. -/
def fileText (tasks : List Task) : String :=
  tasks.foldl (fun out t => out ++ t.toFileString ++ "\n") ""

/-- The method `saveToFile`: the file after the call. When the file cannot be
opened for writing it is left as it was. -/
def saveToFile (m : TaskManager) (writable : Bool) (old : File) : File :=
  if writable then some (fileText m.tasks) else old

/-- Loop body of `loadFromFile`, run over the lines read. -/
def loadLines : List String → TaskManager → Option TaskManager
  | [], m => some m
  | line :: rest, m =>
    match Task.fromFileString line with
    | none => none
    | some task =>
      loadLines rest
        { tasks := m.tasks ++ [task],
          nextTaskId := max m.nextTaskId (wrapInt (task.id + 1)) }

/-- The method `loadFromFile`: the store after the call, `none` when
`std::stoi` throws. -/
def loadFromFile (m : TaskManager) (file : File) : Option TaskManager :=
  match file with
  | none => some m
  | some text => loadLines (readLines text.data) { tasks := [], nextTaskId := 1 }

/-- The constructor `TaskManager(file)`. -/
def init (file : File) : Option TaskManager :=
  loadFromFile { tasks := [], nextTaskId := 1 } file

/-- A task whose line in the file reads back as the task: neither the
description nor the priority holds the separator or a newline, and the id is
an `int`. -/
def Task.Storable (t : Task) : Prop :=
  '|' ∉ t.description.data ∧ '\n' ∉ t.description.data ∧
  '|' ∉ t.priority.data ∧ '\n' ∉ t.priority.data ∧
  INT_MIN ≤ t.id ∧ t.id ≤ INT_MAX

/-- A valid task collection: every description is non-empty, every priority is
one of `High`, `Medium`, `Low`, and the ids are positive `int`s and pairwise
distinct. -/
def ValidCollection (T : List Task) : Prop :=
  (∀ t ∈ T, t.description ≠ "" ∧
    (t.priority = "High" ∨ t.priority = "Medium" ∨ t.priority = "Low") ∧
    0 < t.id ∧ t.id ≤ INT_MAX) ∧
  (T.map Task.id).Nodup

/-! ## Listing -/

/-- Contract of `std::sort(first, last, Task::comparePriority)`: the result
holds the same elements, and no element is ordered before an element that
precedes it. Nothing is promised about elements the comparison does not
order. -/
def IsStdSort (sort : List Task → List Task) : Prop :=
  ∀ l, (sort l).Perm l ∧ (sort l).Pairwise (fun a b => Task.comparePriority b a = false)

/-- Output of `std::left << std::setw(w) << s`. -/
def setw (w : Nat) (s : String) : String :=
  s ++ ⟨List.replicate (w - s.length) ' '⟩

/-- Description text of a row: the expression
`description.length() > 40 ? description.substr(0, 37) + "..." : description`. -/
def shownDescription (t : Task) : String :=
  if t.description.length > 40 then ⟨t.description.data.take 37⟩ ++ "..." else t.description

/-- Text of the row `displayTasks` writes for a task. -/
def row (t : Task) : String :=
  setw 5 (to_string t.id) ++ setw 40 (shownDescription t) ++ setw 15 t.priority ++
    (if t.isCompleted then "Completed" else "Pending") ++ "\n"

/-- Header line of the table. -/
def tableHeader : String :=
  setw 5 "ID" ++ setw 40 "Description" ++ setw 15 "Priority" ++ "Status\n"

/-- Separator line of the table: `std::string(70, '-')` and a newline. -/
def separator : String :=
  ⟨List.replicate 70 '-'⟩ ++ "\n"

/-- Tasks the loop of `displayTasks` writes a row for, in the order of the
rows: the sorted copy without the tasks the `continue` skips. -/
def listedTasks (sort : List Task → List Task) (m : TaskManager) (showCompleted : Bool) :
    List Task :=
  (sort m.tasks).filter (fun task => !(!showCompleted && task.isCompleted))

/-- The method `displayTasks`: the store after the call and the texts written. -/
def displayTasks (sort : List Task → List Task) (m : TaskManager) (showCompleted : Bool) :
    TaskManager × List String :=
  if m.tasks.isEmpty then (m, ["No tasks found.\n"])
  else (m, tableHeader :: separator :: (listedTasks sort m showCompleted).map row)

/-- The method `validatePriority`. -/
def validatePriority (priority : String) : Bool :=
  priority == "High" || priority == "Medium" || priority == "Low"

/-- Texts `displayHeader` writes. -/
def displayHeader : List String :=
  ["===== Task Management System =====\n", "==================================\n\n"]

/-- Text `pauseAndClear` writes. -/
def pauseAndClear : List String :=
  ["\nPress Enter to continue..."]

/-! ## Operations

`std::cin` is the list of the lines `std::getline(std::cin, _)` still has to
return; on an exhausted input `std::getline` fails and leaves its string as it
was. The number `std::cin >> taskId` extracts is the argument `taskId`. -/

/-- The description loop of `addTask`: the first non-empty line, and the input
left. `none` when the input ends first: the loop never exits. -/
def readDescription : List String → Option (String × List String)
  | [] => none
  | line :: rest => if line = "" then readDescription rest else some (line, rest)

/-- The priority loop of `addTask`: the first line `validatePriority` accepts.
`none` when the input ends first: the loop never exits. -/
def readPriority : List String → Option (String × List String)
  | [] => none
  | line :: rest => if validatePriority line then some (line, rest) else readPriority rest

/-- The method `addTask`: the store after the call, `none` when it never
returns. -/
def addTask (m : TaskManager) (input : List String) : Option TaskManager :=
  match readDescription input with
  | none => none
  | some (description, rest) =>
    match readPriority rest with
    | none => none
    | some (priority, _) =>
      some
        { tasks := m.tasks ++
            [{ description := description, priority := priority, isCompleted := false,
               id := m.nextTaskId }],
          nextTaskId := wrapInt (m.nextTaskId + 1) }

/-- The call `std::find_if(tasks.begin(), tasks.end(), pred)`: the position of
the first task `pred` holds for, `none` for `tasks.end()`. -/
def find_if (pred : Task → Bool) : List Task → Option Nat
  | [] => none
  | t :: ts => if pred t then some 0 else (find_if pred ts).map (· + 1)

/-- The priority loop of `editTask`: the new priority, `none` to keep the
current one. -/
def readNewPriority : List String → Option String
  | [] => none
  | line :: rest =>
    if line = "" then none
    else if validatePriority line then some line
    else readNewPriority rest

/-- The method `editTask`: the store after the call. -/
def editTask (m : TaskManager) (taskId : Int) (input : List String) : TaskManager :=
  if m.tasks.isEmpty then m
  else
    match find_if (fun t => t.id == taskId) m.tasks with
    | none => m
    | some it =>
      let newDesc := input.headD ""
      let newPriority := readNewPriority input.tail
      { m with
        tasks := m.tasks.modify
          (fun t =>
            { t with
              description := if newDesc = "" then t.description else newDesc,
              priority := match newPriority with
                | none => t.priority
                | some p => p })
          it }

/-- The method `markTaskCompleted`: the store after the call. -/
def markTaskCompleted (m : TaskManager) (taskId : Int) : TaskManager :=
  if m.tasks.isEmpty then m
  else
    match find_if (fun t => t.id == taskId) m.tasks with
    | none => m
    | some it => { m with tasks := m.tasks.modify (fun t => { t with isCompleted := true }) it }

/-- The method `deleteTask`: the store after the call. -/
def deleteTask (m : TaskManager) (taskId : Int) : TaskManager :=
  if m.tasks.isEmpty then m
  else
    match find_if (fun t => t.id == taskId) m.tasks with
    | none => m
    | some it => { m with tasks := m.tasks.eraseIdx it }

/-- Texts the method `deleteTask` writes. -/
def deleteTaskOutput (sort : List Task → List Task) (m : TaskManager) (taskId : Int) :
    List String :=
  displayHeader ++ (displayTasks sort m true).2 ++
    (if m.tasks.isEmpty then pauseAndClear
     else
      "Enter task ID to delete: " ::
        (match find_if (fun t => t.id == taskId) m.tasks with
          | none => "Task not found.\n"
          | some _ => "Task deleted successfully!\n") ::
        pauseAndClear)

/-- A choice of the menu of `run` that works on the store, with what the
chosen method reads from `std::cin`. -/
inductive Op where
  | add (input : List String)
  | edit (taskId : Int) (input : List String)
  | markCompleted (taskId : Int)
  | delete (taskId : Int)

/-- One operation: the store after it and the id it gave to a new task, if it
added one. `none` when the operation never returns. -/
def step (m : TaskManager) : Op → Option (TaskManager × Option Int)
  | Op.add input => (addTask m input).map (fun m1 => (m1, some m.nextTaskId))
  | Op.edit taskId input => some (editTask m taskId input, none)
  | Op.markCompleted taskId => some (markTaskCompleted m taskId, none)
  | Op.delete taskId => some (deleteTask m taskId, none)

/-- A sequence of operations: the store after it and the ids given to new
tasks, in the order they were given. -/
def runOps : TaskManager → List Op → Option (TaskManager × List Int)
  | m, [] => some (m, [])
  | m, op :: ops =>
    match step m op with
    | none => none
    | some (m1, issued) =>
      match runOps m1 ops with
      | none => none
      | some (m2, ids) => some (m2, issued.toList ++ ids)

/-- Number of `addTask` operations in a sequence. -/
def addCount : List Op → Nat
  | [] => 0
  | Op.add _ :: ops => addCount ops + 1
  | _ :: ops => addCount ops

/-- A sort that meets `IsStdSort` and keeps the order of the tasks it finds
equivalent: insertion from the back. -/
def stableSort (l : List Task) : List Task :=
  l.insertionSort (fun a b => getPriorityRank a.priority ≥ getPriorityRank b.priority)

/-- The call `std::sort(sortedTasks.begin(), sortedTasks.end(),
Task::comparePriority)` with the `std::sort` of libstdc++. -/
def librarySort (l : List Task) : List Task :=
  (stdSort Task.comparePriority l).getD l

/-- A store of 17 tasks with the ids 1 to 17, all with the priority `Medium`
and none completed. -/
def seventeenTasks : TaskManager :=
  { tasks :=
      [⟨"t1", "Medium", false, 1⟩, ⟨"t2", "Medium", false, 2⟩, ⟨"t3", "Medium", false, 3⟩,
       ⟨"t4", "Medium", false, 4⟩, ⟨"t5", "Medium", false, 5⟩, ⟨"t6", "Medium", false, 6⟩,
       ⟨"t7", "Medium", false, 7⟩, ⟨"t8", "Medium", false, 8⟩, ⟨"t9", "Medium", false, 9⟩,
       ⟨"t10", "Medium", false, 10⟩, ⟨"t11", "Medium", false, 11⟩, ⟨"t12", "Medium", false, 12⟩,
       ⟨"t13", "Medium", false, 13⟩, ⟨"t14", "Medium", false, 14⟩, ⟨"t15", "Medium", false, 15⟩,
       ⟨"t16", "Medium", false, 16⟩, ⟨"t17", "Medium", false, 17⟩],
    nextTaskId := 18 }

end TaskManager

/-! ## Lemmas on strings and numbers -/

theorem getlineChars_append (f r : List Char) (d : Char) (h : d ∉ f) :
    getlineChars (f ++ d :: r) d = (f, r) := by
  induction f with
  | nil => simp [getlineChars]
  | cons c cs ih =>
    have hc : c ≠ d := fun e => h (by simp [e])
    have hcs : d ∉ cs := fun e => h (by simp [e])
    simp [getlineChars, hc, ih hcs]

theorem getlineChars_no_delim (f : List Char) (d : Char) (h : d ∉ f) :
    getlineChars f d = (f, []) := by
  induction f with
  | nil => simp [getlineChars]
  | cons c cs ih =>
    have hc : c ≠ d := fun e => h (by simp [e])
    have hcs : d ∉ cs := fun e => h (by simp [e])
    simp [getlineChars, hc, ih hcs]

theorem readLines_append (l rest : List Char) (h : '\n' ∉ l) :
    readLines (l ++ '\n' :: rest) = String.mk l :: readLines rest := by
  induction l with
  | nil => simp [readLines]
  | cons c cs ih =>
    have hc : c ≠ '\n' := fun e => h (by simp [e])
    have hcs : '\n' ∉ cs := fun e => h (by simp [e])
    simp [readLines, hc, ih hcs]

theorem digitChar_spec : ∀ k : Nat, k < 10 →
    (Nat.digitChar k).isDigit = true ∧ (Nat.digitChar k).toNat - 48 = k := by
  decide

theorem isDigit_ne {c : Char} (h : c.isDigit = true) :
    isspace c = false ∧ c ≠ '-' ∧ c ≠ '+' ∧ c ≠ '|' ∧ c ≠ '\n' := by
  have key : ∀ x : Char, x.isDigit = false → c ≠ x := by
    intro x hx e
    rw [e, hx] at h
    exact Bool.noConfusion h
  refine ⟨?_, key _ (by decide), key _ (by decide), key _ (by decide), key _ (by decide)⟩
  have h1 := key ' ' (by decide)
  have h2 := key '\t' (by decide)
  have h3 := key '\n' (by decide)
  have h4 := key '\x0b' (by decide)
  have h5 := key '\x0c' (by decide)
  have h6 := key '\r' (by decide)
  simp [isspace, h1, h2, h3, h4, h5, h6]

theorem digitsValue_append (ds : List Char) (c : Char) :
    digitsValue (ds ++ [c]) = 10 * digitsValue ds + (c.toNat - 48) := by
  simp [digitsValue, List.foldl_append]

theorem digits_of_nat (steps : Nat) (k : Nat) (tail : List Char) (hk : k < steps) :
    ∃ front : List Char, (∀ c ∈ front, c.isDigit = true) ∧ front ≠ [] ∧
      digitsValue front = k ∧ Nat.toDigitsCore 10 steps k tail = front ++ tail := by
  induction steps generalizing k tail with
  | zero => omega
  | succ steps ih =>
    have hd := digitChar_spec (k % 10) (Nat.mod_lt _ (by decide))
    by_cases h0 : k / 10 = 0
    · refine ⟨[Nat.digitChar (k % 10)], ?_, by simp, ?_, by simp [Nat.toDigitsCore, h0]⟩
      · intro c hc
        simp only [List.mem_singleton] at hc
        rw [hc]; exact hd.1
      · simp only [digitsValue, List.foldl_cons, List.foldl_nil, hd.2]
        omega
    · have hlt : k / 10 < steps := by omega
      obtain ⟨front, hdig, hne, hval, hfront⟩ := ih (k / 10) (Nat.digitChar (k % 10) :: tail) hlt
      refine ⟨front ++ [Nat.digitChar (k % 10)], ?_, by simp, ?_,
        by simp [Nat.toDigitsCore, h0, hfront]⟩
      · intro c hc
        rcases List.mem_append.1 hc with hc | hc
        · exact hdig c hc
        · simp only [List.mem_singleton] at hc
          rw [hc]; exact hd.1
      · rw [digitsValue_append, hval, hd.2]
        omega

theorem toDigits_spec (n : Nat) :
    Nat.toDigits 10 n ≠ [] ∧ (∀ c ∈ Nat.toDigits 10 n, c.isDigit = true) ∧
      digitsValue (Nat.toDigits 10 n) = n := by
  obtain ⟨front, hdig, hne, hval, hfront⟩ := digits_of_nat (n + 1) n [] (by omega)
  simp only [List.append_nil] at hfront
  unfold Nat.toDigits
  rw [hfront]
  exact ⟨hne, hdig, hval⟩

theorem takeWhile_all {p : Char → Bool} {l : List Char} (h : ∀ c ∈ l, p c = true) :
    l.takeWhile p = l := by
  induction l with
  | nil => rfl
  | cons c cs ih =>
    have hc := h c (by simp)
    simp [List.takeWhile, hc, ih (fun x hx => h x (by simp [hx]))]

theorem stoi_digits {ds : List Char} (hne : ds ≠ []) (hdig : ∀ c ∈ ds, c.isDigit = true)
    (hr : (digitsValue ds : Int) ≤ INT_MAX) :
    stoi (String.mk ds) = some (digitsValue ds : Int) := by
  cases ds with
  | nil => exact absurd rfl hne
  | cons c cs =>
    have hc := isDigit_ne (hdig c (by simp))
    have h1 : (c :: cs).dropWhile isspace = c :: cs := by
      simp [List.dropWhile, hc.1]
    have h2 : readSign (c :: cs) = (false, c :: cs) := by
      simp [readSign, hc.2.1, hc.2.2.1]
    have h3 : (c :: cs).takeWhile Char.isDigit = c :: cs := takeWhile_all hdig
    have h4 : INT_MIN ≤ (digitsValue (c :: cs) : Int) := by
      unfold INT_MIN; omega
    unfold stoi
    simp only [h1, h2, h3]
    simp [h4, hr]

theorem stoi_neg_digits {ds : List Char} (hne : ds ≠ []) (hdig : ∀ c ∈ ds, c.isDigit = true)
    (hr : INT_MIN ≤ -(digitsValue ds : Int)) :
    stoi (String.mk ('-' :: ds)) = some (-(digitsValue ds : Int)) := by
  have h1 : ('-' :: ds).dropWhile isspace = '-' :: ds := by
    have : isspace '-' = false := by decide
    simp [List.dropWhile, this]
  have h2 : readSign ('-' :: ds) = (true, ds) := by
    simp [readSign]
  have h3 : ds.takeWhile Char.isDigit = ds := takeWhile_all hdig
  have h4 : -(digitsValue ds : Int) ≤ INT_MAX := by
    unfold INT_MAX; omega
  unfold stoi
  simp only [h1, h2, h3]
  simp [hne, h4, hr]

theorem stoi_to_string {n : Int} (h1 : INT_MIN ≤ n) (h2 : n ≤ INT_MAX) :
    stoi (to_string n) = some n := by
  unfold to_string
  by_cases hn : n < 0
  · rw [if_pos hn]
    obtain ⟨hne, hdig, hval⟩ := toDigits_spec n.natAbs
    have hv : -((digitsValue (Nat.toDigits 10 n.natAbs) : Nat) : Int) = n := by
      rw [hval]; omega
    have := stoi_neg_digits hne hdig (by rw [hv]; exact h1)
    rw [hv] at this
    exact this
  · rw [if_neg hn]
    obtain ⟨hne, hdig, hval⟩ := toDigits_spec n.toNat
    have hv : ((digitsValue (Nat.toDigits 10 n.toNat) : Nat) : Int) = n := by
      rw [hval]; omega
    have := stoi_digits hne hdig (by rw [hv]; exact h2)
    rw [hv] at this
    exact this

theorem to_string_no_delim (n : Int) :
    '|' ∉ (to_string n).data ∧ '\n' ∉ (to_string n).data := by
  have hd : ∀ k : Nat, '|' ∉ Nat.toDigits 10 k ∧ '\n' ∉ Nat.toDigits 10 k := by
    intro k
    obtain ⟨_, hdig, _⟩ := toDigits_spec k
    exact ⟨fun hm => (isDigit_ne (hdig _ hm)).2.2.2.1 rfl,
      fun hm => (isDigit_ne (hdig _ hm)).2.2.2.2 rfl⟩
  unfold to_string
  by_cases hn : n < 0
  · rw [if_pos hn]
    have := hd n.natAbs
    constructor
    · intro hm
      rcases List.mem_cons.1 hm with e | hm
      · exact absurd e (by decide)
      · exact this.1 hm
    · intro hm
      rcases List.mem_cons.1 hm with e | hm
      · exact absurd e (by decide)
      · exact this.2 hm
  · rw [if_neg hn]
    exact hd n.toNat

namespace TaskManager

/-! ## Lemmas on `find_if` -/

theorem find_if_none {pred : Task → Bool} {l : List Task} (h : find_if pred l = none) :
    ∀ u ∈ l, pred u = false := by
  induction l with
  | nil => simp
  | cons t ts ih =>
    by_cases hp : pred t = true
    · simp [find_if, hp] at h
    · simp only [find_if, hp, Option.map_eq_none', Bool.false_eq_true, if_false] at h
      intro u hu
      rcases List.mem_cons.1 hu with rfl | hu
      · simpa using hp
      · exact ih h u hu

theorem find_if_some {pred : Task → Bool} {l : List Task} {i : Nat}
    (h : find_if pred l = some i) :
    ∃ pre x post, l = pre ++ x :: post ∧ pre.length = i ∧ pred x = true ∧
      ∀ u ∈ pre, pred u = false := by
  induction l generalizing i with
  | nil => simp [find_if] at h
  | cons t ts ih =>
    by_cases hp : pred t = true
    · simp only [find_if, hp, if_true, Option.some.injEq] at h
      exact ⟨[], t, ts, rfl, by simpa using h, hp, by simp⟩
    · simp only [find_if, hp, Bool.false_eq_true, if_false, Option.map_eq_some'] at h
      obtain ⟨j, hj, rfl⟩ := h
      obtain ⟨pre, x, post, hl, hlen, hx, hpre⟩ := ih hj
      refine ⟨t :: pre, x, post, by simp [hl], by simp [hlen], hx, ?_⟩
      intro u hu
      rcases List.mem_cons.1 hu with rfl | hu
      · simpa using hp
      · exact hpre u hu

theorem find_if_isSome {pred : Task → Bool} {l : List Task} (h : ∃ u ∈ l, pred u = true) :
    ∃ i, find_if pred l = some i := by
  cases hf : find_if pred l with
  | some i => exact ⟨i, rfl⟩
  | none =>
    obtain ⟨u, hu, hpu⟩ := h
    have := find_if_none hf u hu
    simp [hpu] at this

theorem modify_fixed {f : Task → Task} (hf : ∀ t, f t = t) (l : List Task) (i : Nat) :
    l.modify f i = l := by
  have : f = id := funext hf
  rw [this, List.modify_id]

theorem eraseIdx_split (pre post : List Task) (x : Task) :
    (pre ++ x :: post).eraseIdx pre.length = pre ++ post := by
  rw [List.eraseIdx_append_of_length_le (Nat.le_refl _)]
  simp


/-! ## Edit with empty inputs (C10) -/

/-- C10. For an id of a task in the store, `editTask` leaves the store as it
was (the task's description, priority, id and flag, all other tasks, their
order, and `nextTaskId`) when the line read for the new description is empty
and the line read for the new priority is empty. -/
theorem editTask_empty_inputs (m : TaskManager) (taskId : Int) (input : List String)
    (hex : ∃ t ∈ m.tasks, t.id = taskId)
    (hdesc : input.headD "" = "") (hprio : input.tail.headD "" = "") :
    editTask m taskId input = m := by
  obtain ⟨_, _, _⟩ := hex
  have hnp : readNewPriority input.tail = none := by
    cases hti : input.tail with
    | nil => rfl
    | cons l rest =>
      rw [hti] at hprio
      simp only [List.headD_cons] at hprio
      simp [readNewPriority, hprio]
  unfold editTask
  split
  · rfl
  · split
    · rfl
    · simp only [hdesc, hnp, if_true]
      rw [modify_fixed (fun t => rfl)]

/-- Witness for `editTask_empty_inputs`: editing task 2 of a two-task store
with two empty input lines. -/
theorem editTask_empty_inputs_witness :
    editTask ⟨[⟨"a", "Low", false, 1⟩, ⟨"b", "High", true, 2⟩], 3⟩ 2 ["", ""]
      = ⟨[⟨"a", "Low", false, 1⟩, ⟨"b", "High", true, 2⟩], 3⟩ :=
  editTask_empty_inputs ⟨[⟨"a", "Low", false, 1⟩, ⟨"b", "High", true, 2⟩], 3⟩ 2 ["", ""]
    (by decide) (by decide) (by decide)


/-! ## Lemmas on sorting -/

theorem comparePriority_eq_false_iff (a b : Task) :
    Task.comparePriority b a = false ↔ getPriorityRank a.priority ≥ getPriorityRank b.priority := by
  simp [Task.comparePriority]

theorem stableSort_isStdSort : IsStdSort stableSort := by
  intro l
  haveI : IsTotal Task (fun a b => getPriorityRank a.priority ≥ getPriorityRank b.priority) :=
    ⟨fun a b => le_total _ _⟩
  haveI : IsTrans Task (fun a b => getPriorityRank a.priority ≥ getPriorityRank b.priority) :=
    ⟨fun a b c hab hbc => le_trans hbc hab⟩
  refine ⟨List.perm_insertionSort _ l, ?_⟩
  have hs := List.sorted_insertionSort
    (fun a b : Task => getPriorityRank a.priority ≥ getPriorityRank b.priority) l
  exact List.Pairwise.imp (fun {a b} h => (comparePriority_eq_false_iff a b).2 h) hs

theorem listedTasks_perm {sort : List Task → List Task} (hsort : IsStdSort sort)
    (m : TaskManager) (showCompleted : Bool) :
    (listedTasks sort m showCompleted).Perm
      (m.tasks.filter (fun t => showCompleted || !t.isCompleted)) := by
  unfold listedTasks
  have h : (fun task : Task => !(!showCompleted && task.isCompleted))
      = (fun t : Task => showCompleted || !t.isCompleted) := by
    funext t
    cases showCompleted <;> cases t.isCompleted <;> rfl
  rw [h]
  exact (hsort m.tasks).1.filter _

theorem listedTasks_sorted {sort : List Task → List Task} (hsort : IsStdSort sort)
    (m : TaskManager) (showCompleted : Bool) :
    (listedTasks sort m showCompleted).Pairwise
      (fun a b => getPriorityRank a.priority ≥ getPriorityRank b.priority) := by
  unfold listedTasks
  apply List.Pairwise.filter
  exact List.Pairwise.imp (fun {a b} h => (comparePriority_eq_false_iff a b).1 h) (hsort m.tasks).2

theorem displayTasks_output (sort : List Task → List Task) (m : TaskManager)
    (showCompleted : Bool) :
    (displayTasks sort m showCompleted).2 =
      if m.tasks = [] then ["No tasks found.\n"]
      else tableHeader :: separator :: (listedTasks sort m showCompleted).map row := by
  unfold displayTasks
  cases h : m.tasks with
  | nil => simp
  | cons t ts => simp


/-! ## Deletion (C7) -/

/-- C7, as the code has it. If a task with the id is in the store, `deleteTask`
removes the first such task and nothing else: the other tasks keep their
values and their order, `nextTaskId` keeps its value, and the deletion is
reported. If no task has the id, the store is left as it was; on a store that
is not empty `Task not found.` is reported after the prompt, and on an empty
store no id is asked for and the output is the header, `No tasks found.` and
the pause text. -/
theorem deleteTask_removes_one (sort : List Task → List Task) (m : TaskManager)
    (taskId : Int) :
    ((∃ t ∈ m.tasks, t.id = taskId) →
      ∃ pre x post, m.tasks = pre ++ x :: post ∧ x.id = taskId ∧ (∀ u ∈ pre, u.id ≠ taskId) ∧
        deleteTask m taskId = { tasks := pre ++ post, nextTaskId := m.nextTaskId } ∧
        deleteTaskOutput sort m taskId =
          displayHeader ++ (displayTasks sort m true).2 ++
            ["Enter task ID to delete: ", "Task deleted successfully!\n"] ++ pauseAndClear)
    ∧ ((∀ t ∈ m.tasks, t.id ≠ taskId) →
      deleteTask m taskId = m ∧
      (m.tasks ≠ [] →
        deleteTaskOutput sort m taskId =
          displayHeader ++ (displayTasks sort m true).2 ++
            ["Enter task ID to delete: ", "Task not found.\n"] ++ pauseAndClear) ∧
      (m.tasks = [] →
        deleteTaskOutput sort m taskId =
          displayHeader ++ ["No tasks found.\n"] ++ pauseAndClear)) := by
  constructor
  · rintro ⟨t, ht, hid⟩
    have hne : m.tasks.isEmpty = false := by
      cases hm : m.tasks with
      | nil => rw [hm] at ht; simp at ht
      | cons a l => rfl
    have hfound : ∃ u ∈ m.tasks, (fun t : Task => t.id == taskId) u = true :=
      ⟨t, ht, by simp [hid]⟩
    obtain ⟨i, hi⟩ := find_if_isSome hfound
    obtain ⟨pre, x, post, hl, hlen, hx, hpre⟩ := find_if_some hi
    refine ⟨pre, x, post, hl, by simpa using hx, ?_, ?_, ?_⟩
    · intro u hu
      have := hpre u hu
      simpa using this
    · unfold deleteTask
      rw [hne, hi]
      simp only [Bool.false_eq_true, if_false]
      rw [hl, ← hlen, eraseIdx_split]
    · unfold deleteTaskOutput
      rw [hne, hi]
      simp
  · intro hall
    have hnone : find_if (fun t => t.id == taskId) m.tasks = none := by
      cases hf : find_if (fun t => t.id == taskId) m.tasks with
      | none => rfl
      | some i =>
        obtain ⟨pre, x, post, hl, _, hx, _⟩ := find_if_some hf
        have hxm : x ∈ m.tasks := by rw [hl]; simp
        have := hall x hxm
        simp at hx
        exact absurd hx this
    refine ⟨?_, ?_, ?_⟩
    · unfold deleteTask
      rw [hnone]
      split <;> rfl
    · intro hne
      have hne2 : m.tasks.isEmpty = false := by
        cases hm : m.tasks with
        | nil => exact absurd hm hne
        | cons a l => rfl
      unfold deleteTaskOutput
      rw [hne2, hnone]
      simp
    · intro he
      unfold deleteTaskOutput displayTasks
      rw [he]
      simp

/-- C7 fails as stated on the empty store: no task has id 5, and `deleteTask`
returns before it asks for an id, so `Task not found.` is not written. -/
theorem deleteTask_empty_store_counterexample :
    (∀ t ∈ (TaskManager.mk [] 1).tasks, t.id ≠ 5) ∧
    deleteTask (TaskManager.mk [] 1) 5 = TaskManager.mk [] 1 ∧
    "Task not found.\n" ∉ deleteTaskOutput stableSort (TaskManager.mk [] 1) 5 ∧
    deleteTaskOutput stableSort (TaskManager.mk [] 1) 5 =
      displayHeader ++ ["No tasks found.\n"] ++ pauseAndClear := by
  decide

/-! ## Empty listing (C5) -/

/-- C5, as the code has it. On an empty store `displayTasks` writes only
`No tasks found.`. On a store that is not empty, when only pending tasks are
asked for and every task is completed, it writes the table header and the
separator, no row and no message. -/
theorem displayTasks_empty_listing (sort : List Task → List Task) (hsort : IsStdSort sort)
    (m : TaskManager) (showCompleted : Bool) :
    (m.tasks = [] → (displayTasks sort m showCompleted).2 = ["No tasks found.\n"]) ∧
    (m.tasks ≠ [] → showCompleted = false → (∀ t ∈ m.tasks, t.isCompleted = true) →
      (displayTasks sort m showCompleted).2 = [tableHeader, separator]) := by
  constructor
  · intro he
    rw [displayTasks_output, if_pos he]
  · intro hne hshow hall
    rw [displayTasks_output, if_neg hne]
    have hperm := listedTasks_perm hsort m showCompleted
    have hfil : m.tasks.filter (fun t => showCompleted || !t.isCompleted) = [] := by
      rw [List.filter_eq_nil_iff]
      intro t ht
      simp [hshow, hall t ht]
    rw [hfil] at hperm
    rw [List.Perm.eq_nil hperm]
    rfl

/-- Witness for `displayTasks_empty_listing`: the empty store, and a store
whose only task is completed, both listed without completed tasks. -/
theorem displayTasks_empty_listing_witness :
    (displayTasks stableSort (TaskManager.mk [] 1) false).2 = ["No tasks found.\n"] ∧
    (displayTasks stableSort (TaskManager.mk [⟨"a", "Low", true, 1⟩] 2) false).2
      = [tableHeader, separator] :=
  ⟨(displayTasks_empty_listing stableSort stableSort_isStdSort (TaskManager.mk [] 1) false).1 rfl,
   (displayTasks_empty_listing stableSort stableSort_isStdSort
      (TaskManager.mk [⟨"a", "Low", true, 1⟩] 2) false).2 (by decide) rfl (by decide)⟩

/-- C5 fails as stated: with one completed task in the store and only pending
tasks asked for, nothing is to be listed, yet `displayTasks` writes the table
header and the separator and does not write `No tasks found.`. -/
theorem displayTasks_empty_listing_counterexample :
    IsStdSort stableSort ∧
    (∀ t ∈ (TaskManager.mk [⟨"a", "Low", true, 1⟩] 2).tasks, t.isCompleted = true) ∧
    (displayTasks stableSort (TaskManager.mk [⟨"a", "Low", true, 1⟩] 2) false).2
      ≠ ["No tasks found.\n"] ∧
    (displayTasks stableSort (TaskManager.mk [⟨"a", "Low", true, 1⟩] 2) false).2
      = [tableHeader, separator] :=
  ⟨stableSort_isStdSort, by decide, by decide, by decide⟩

/-! ## Filtering (C6) -/

/-- C6. For a `std::sort` that meets its contract, the tasks `displayTasks`
writes a row for when completed tasks are left out are the tasks of the store
that are not completed, each as often as it is in the store; when completed
tasks are shown they are all tasks of the store; and the rows written are the
rows of these tasks (after the header and separator; none on an empty
store). -/
theorem displayTasks_filters_pending (sort : List Task → List Task) (hsort : IsStdSort sort)
    (m : TaskManager) :
    (listedTasks sort m false).Perm (m.tasks.filter (fun t => !t.isCompleted)) ∧
    (∀ t ∈ listedTasks sort m false, t.isCompleted = false) ∧
    (listedTasks sort m true).Perm m.tasks ∧
    ∀ showCompleted, (displayTasks sort m showCompleted).2 =
      if m.tasks = [] then ["No tasks found.\n"]
      else tableHeader :: separator :: (listedTasks sort m showCompleted).map row := by
  have h1 := listedTasks_perm hsort m false
  have h2 := listedTasks_perm hsort m true
  simp only [Bool.false_or, Bool.true_or, List.filter_true] at h1 h2
  refine ⟨h1, ?_, h2, fun b => displayTasks_output sort m b⟩
  intro t ht
  have := (h1.mem_iff).1 ht
  simpa using (List.mem_filter.1 this).2

/-- Witness for `displayTasks_filters_pending`: three tasks of which task 2 is
completed; the pending view lists tasks 1 and 3. -/
theorem displayTasks_filters_pending_witness :
    (listedTasks stableSort
        (TaskManager.mk [⟨"a", "Low", false, 1⟩, ⟨"b", "Low", true, 2⟩, ⟨"c", "Low", false, 3⟩] 4)
        false).Perm [⟨"a", "Low", false, 1⟩, ⟨"c", "Low", false, 3⟩] :=
  (displayTasks_filters_pending stableSort stableSort_isStdSort
    (TaskManager.mk [⟨"a", "Low", false, 1⟩, ⟨"b", "Low", true, 2⟩, ⟨"c", "Low", false, 3⟩] 4)).1


/-! ## Orders of four tasks -/

theorem sorted_four {l : List Task} {a b c d : Task}
    (ha : getPriorityRank a.priority = 1) (hb : getPriorityRank b.priority = 3)
    (hc : getPriorityRank c.priority = 2) (hd : getPriorityRank d.priority = 3)
    (hperm : l.Perm [a, b, c, d])
    (hs : l.Pairwise (fun x y => getPriorityRank x.priority ≥ getPriorityRank y.priority)) :
    l = [b, d, c, a] ∨ l = [d, b, c, a] := by
  have hmem := (List.mem_permutations'.2 hperm)
  simp only [List.permutations', List.permutations'Aux, List.flatMap_cons, List.flatMap_nil,
    List.map_cons, List.map_nil, List.append_nil, List.cons_append, List.nil_append,
    List.mem_cons, List.mem_singleton, List.not_mem_nil, or_false] at hmem
  rcases hmem with h | h | h | h | h | h | h | h | h | h | h | h | h | h | h | h | h | h | h
      | h | h | h | h | h <;> subst h <;>
    simp only [List.pairwise_cons, List.mem_cons, List.mem_singleton, forall_eq_or_imp, forall_eq,
      List.not_mem_nil, ha, hb, hc, hd] at hs <;>
    first
      | (left; rfl)
      | (right; rfl)
      | (exfalso; omega)

/-! ## Lemmas on the insertion sort of libstdc++ -/

theorem comparePriority_eq_true_iff (a b : Task) :
    Task.comparePriority a b = true ↔ getPriorityRank b.priority < getPriorityRank a.priority := by
  simp [Task.comparePriority]

theorem unguardedLinearInsert_split (val : Task) (r : List Task)
    (hr : r.Pairwise (fun x y => getPriorityRank x.priority ≤ getPriorityRank y.priority))
    (hex : ∃ x ∈ r, getPriorityRank val.priority ≤ getPriorityRank x.priority) :
    ∃ s t, r = s ++ t ∧
      unguardedLinearInsert Task.comparePriority val r = some (s ++ val :: t) ∧
      (∀ x ∈ s, getPriorityRank x.priority < getPriorityRank val.priority) ∧
      (∀ x ∈ t, getPriorityRank val.priority ≤ getPriorityRank x.priority) := by
  induction r with
  | nil => simp at hex
  | cons next front ih =>
    rw [List.pairwise_cons] at hr
    by_cases hc : Task.comparePriority val next = true
    · have hlt := (comparePriority_eq_true_iff val next).1 hc
      have hex2 : ∃ x ∈ front, getPriorityRank val.priority ≤ getPriorityRank x.priority := by
        obtain ⟨x, hx, hle⟩ := hex
        rcases List.mem_cons.1 hx with rfl | hx
        · omega
        · exact ⟨x, hx, hle⟩
      obtain ⟨s, t, hst, hins, hs, ht⟩ := ih hr.2 hex2
      refine ⟨next :: s, t, by simp [hst], ?_, ?_, ht⟩
      · simp [unguardedLinearInsert, hc, hins]
      · intro x hx
        rcases List.mem_cons.1 hx with rfl | hx
        · exact hlt
        · exact hs x hx
    · have hle : getPriorityRank val.priority ≤ getPriorityRank next.priority := by
        have := (comparePriority_eq_true_iff val next).not.1 hc
        omega
      refine ⟨[], next :: front, rfl, by simp [unguardedLinearInsert, hc], by simp, ?_⟩
      intro x hx
      rcases List.mem_cons.1 hx with rfl | hx
      · exact hle
      · have := hr.1 x hx
        omega

theorem insertionStep_split (val : Task) (done : List Task) (hne : done ≠ [])
    (hr : done.Pairwise (fun x y => getPriorityRank x.priority ≤ getPriorityRank y.priority)) :
    ∃ s t, done = s ++ t ∧
      insertionStep Task.comparePriority done val = some (s ++ val :: t) ∧
      (∀ x ∈ s, getPriorityRank x.priority < getPriorityRank val.priority) ∧
      (∀ x ∈ t, getPriorityRank val.priority ≤ getPriorityRank x.priority) := by
  cases hl : done.getLast? with
  | none => exact absurd (List.getLast?_eq_none_iff.1 hl) hne
  | some first =>
    obtain ⟨ys, hys⟩ := List.getLast?_eq_some_iff.1 hl
    by_cases hc : Task.comparePriority val first = true
    · have hlt := (comparePriority_eq_true_iff val first).1 hc
      refine ⟨done, [], by simp, by simp [insertionStep, hl, hc], ?_, by simp⟩
      intro x hx
      rw [hys] at hx hr
      rw [List.pairwise_append] at hr
      rcases List.mem_append.1 hx with hx | hx
      · have := hr.2.2 x hx first (by simp)
        omega
      · simp only [List.mem_singleton] at hx
        rw [hx]; exact hlt
    · have hle : getPriorityRank val.priority ≤ getPriorityRank first.priority := by
        have := (comparePriority_eq_true_iff val first).not.1 hc
        omega
      have hstep : insertionStep Task.comparePriority done val
          = unguardedLinearInsert Task.comparePriority val done := by
        simp [insertionStep, hl, hc]
      rw [hstep]
      exact unguardedLinearInsert_split val done hr
        ⟨first, List.mem_of_getLast?_eq_some hl, hle⟩

theorem insertion_fold (rest : List Task) :
    ∀ done pre : List Task, done ≠ [] → done.Perm pre →
      done.Pairwise (fun x y => getPriorityRank x.priority ≤ getPriorityRank y.priority) →
      (∀ k : Int, done.reverse.filter (fun t => decide (getPriorityRank t.priority = k))
        = pre.filter (fun t => decide (getPriorityRank t.priority = k))) →
      ∃ out, rest.foldlM (insertionStep Task.comparePriority) done = some out ∧
        out.Perm (pre ++ rest) ∧
        out.Pairwise (fun x y => getPriorityRank x.priority ≤ getPriorityRank y.priority) ∧
        ∀ k : Int, out.reverse.filter (fun t => decide (getPriorityRank t.priority = k))
          = (pre ++ rest).filter (fun t => decide (getPriorityRank t.priority = k)) := by
  induction rest with
  | nil =>
    intro done pre _ hp hs hst
    exact ⟨done, rfl, by simpa using hp, hs, by simpa using hst⟩
  | cons val rest ih =>
    intro done pre hne hp hs hst
    obtain ⟨s, t, hd, hstep, hlow, hhigh⟩ := insertionStep_split val done hne hs
    have hs2 : (s ++ val :: t).Pairwise
        (fun x y => getPriorityRank x.priority ≤ getPriorityRank y.priority) := by
      rw [hd, List.pairwise_append] at hs
      rw [List.pairwise_append, List.pairwise_cons]
      refine ⟨hs.1, ⟨hhigh, hs.2.1⟩, ?_⟩
      intro x hx y hy
      rcases List.mem_cons.1 hy with rfl | hy
      · have := hlow x hx; omega
      · exact hs.2.2 x hx y hy
    have hp2 : (s ++ val :: t).Perm (pre ++ [val]) := by
      refine List.perm_middle.trans ?_
      refine (List.Perm.cons val (hd ▸ hp)).trans ?_
      exact (List.perm_append_singleton val pre).symm
    have hst2 : ∀ k : Int,
        (s ++ val :: t).reverse.filter (fun t => decide (getPriorityRank t.priority = k))
          = (pre ++ [val]).filter (fun t => decide (getPriorityRank t.priority = k)) := by
      intro k
      have h0 := hst k
      rw [hd] at h0
      simp only [List.reverse_append, List.filter_append, List.reverse_cons, List.append_assoc,
        List.singleton_append] at h0 ⊢
      rw [← h0]
      by_cases hk : getPriorityRank val.priority = k
      · have hsk : s.reverse.filter (fun t => decide (getPriorityRank t.priority = k)) = [] := by
          rw [List.filter_eq_nil_iff]
          intro x hx
          have := hlow x (List.mem_reverse.1 hx)
          simp only [decide_eq_true_eq]
          omega
        simp [List.filter_cons, hk, hsk]
      · simp [List.filter_cons, hk]
    obtain ⟨out, hout, hperm, hsorted, hstab⟩ :=
      ih (s ++ val :: t) (pre ++ [val]) (by simp) hp2 hs2 hst2
    refine ⟨out, ?_, ?_, hsorted, ?_⟩
    · rw [List.foldlM_cons, hstep]
      exact hout
    · simpa using hperm
    · intro k
      simpa using hstab k

theorem introsortLoop_small (arr : List Task) (fuel first last depth : Nat)
    (h : last - first ≤ 16) :
    introsortLoop Task.comparePriority (fuel + 1) arr first last depth = some arr := by
  have : ¬ last - first > 16 := by omega
  simp [introsortLoop, this]

/-- Up to 16 tasks the `std::sort` of libstdc++ is an insertion sort: the
result holds the same tasks, the rank never increases, the tasks of each rank
keep their order, and the sort returns. -/
theorem librarySort_small (l : List Task) (h : l.length ≤ 16) :
    (librarySort l).Perm l ∧
    (librarySort l).Pairwise
      (fun a b => getPriorityRank a.priority ≥ getPriorityRank b.priority) ∧
    (∀ k : Int, (librarySort l).filter (fun t => decide (getPriorityRank t.priority = k))
      = l.filter (fun t => decide (getPriorityRank t.priority = k))) ∧
    stdSort Task.comparePriority l = some (librarySort l) := by
  cases l with
  | nil => simp [librarySort, stdSort]
  | cons a rest =>
    obtain ⟨out, hout, hperm, hsorted, hstab⟩ :=
      insertion_fold rest [a] [a] (by simp) (List.Perm.refl _) (by simp) (fun k => rfl)
    have hstd : stdSort Task.comparePriority (a :: rest) = some out.reverse := by
      have h16 : ¬ (a :: rest).length > 16 := by omega
      unfold stdSort
      rw [introsortLoop_small _ _ _ _ _ (by simpa using h)]
      simp only [finalInsertionSort, h16, if_false, insertionSortRev, hout, Option.map_some']
    have hsort : librarySort (a :: rest) = out.reverse := by
      unfold librarySort
      rw [hstd, Option.getD_some]
    rw [hsort]
    refine ⟨(List.reverse_perm out).trans (by simpa using hperm), ?_, ?_, hstd⟩
    · rw [List.pairwise_reverse]
      exact hsorted
    · intro k
      simpa using hstab k

/-! ## Sort order (C4) -/

/-- C4, as the code has it. For every `std::sort` that meets its contract, the
tasks `displayTasks` writes a row for are the tasks to list (all tasks, or the
tasks not completed), each as often as it is in the store, in an order in
which the priority rank never increases from a row to a later row; the rank is
3 for `High`, 2 for `Medium`, 1 for `Low` and 1 for any other text. With the
`std::sort` of libstdc++ and at most 16 tasks in the store, the sort returns
and the tasks of each rank are moreover listed in their insertion order; so for tasks with
priorities Low, High, Medium, High the two High tasks come first in their
original order, then the Medium task, then the Low task. -/
theorem displayTasks_sorted_by_rank (sort : List Task → List Task) (hsort : IsStdSort sort)
    (m : TaskManager) (showCompleted : Bool) :
    ((listedTasks sort m showCompleted).Perm
        (m.tasks.filter (fun t => showCompleted || !t.isCompleted)) ∧
      (listedTasks sort m showCompleted).Pairwise
        (fun a b => getPriorityRank a.priority ≥ getPriorityRank b.priority) ∧
      (m.tasks ≠ [] → (displayTasks sort m showCompleted).2 =
        tableHeader :: separator :: (listedTasks sort m showCompleted).map row)) ∧
    (getPriorityRank "High" = 3 ∧ getPriorityRank "Medium" = 2 ∧ getPriorityRank "Low" = 1 ∧
      ∀ p, p ≠ "High" → p ≠ "Medium" → p ≠ "Low" → getPriorityRank p = 1) ∧
    (m.tasks.length ≤ 16 →
      stdSort Task.comparePriority m.tasks = some (librarySort m.tasks) ∧
      (listedTasks librarySort m showCompleted).Perm
        (m.tasks.filter (fun t => showCompleted || !t.isCompleted)) ∧
      (listedTasks librarySort m showCompleted).Pairwise
        (fun a b => getPriorityRank a.priority ≥ getPriorityRank b.priority) ∧
      (∀ k : Int,
        (listedTasks librarySort m showCompleted).filter
            (fun t => decide (getPriorityRank t.priority = k))
          = (m.tasks.filter (fun t => showCompleted || !t.isCompleted)).filter
            (fun t => decide (getPriorityRank t.priority = k))) ∧
      (m.tasks ≠ [] → (displayTasks librarySort m showCompleted).2 =
        tableHeader :: separator :: (listedTasks librarySort m showCompleted).map row)) ∧
    (∀ a b c d : Task, a.priority = "Low" → b.priority = "High" → c.priority = "Medium" →
      d.priority = "High" → m.tasks = [a, b, c, d] →
      listedTasks librarySort m true = [b, d, c, a]) := by
  have hcond : (fun task : Task => !(!showCompleted && task.isCompleted))
      = (fun t : Task => showCompleted || !t.isCompleted) := by
    funext t
    cases showCompleted <;> cases t.isCompleted <;> rfl
  refine ⟨⟨listedTasks_perm hsort m showCompleted, listedTasks_sorted hsort m showCompleted, ?_⟩,
    ⟨by decide, by decide, by decide, ?_⟩, ?_, ?_⟩
  · intro hne
    rw [displayTasks_output, if_neg hne]
  · intro p h1 h2 h3
    simp [getPriorityRank, h1, h2, h3]
  · intro hlen
    obtain ⟨hp, hs, hst, hret⟩ := librarySort_small m.tasks hlen
    refine ⟨hret, ?_, ?_, ?_, ?_⟩
    · unfold listedTasks
      rw [hcond]
      exact hp.filter _
    · unfold listedTasks
      exact List.Pairwise.filter _ hs
    · intro k
      unfold listedTasks
      rw [hcond, List.filter_filter, List.filter_filter]
      have hswap : (fun a : Task => decide (getPriorityRank a.priority = k) &&
            (showCompleted || !a.isCompleted))
          = (fun a : Task => (showCompleted || !a.isCompleted) &&
            decide (getPriorityRank a.priority = k)) := by
        funext a
        exact Bool.and_comm _ _
      rw [hswap, ← List.filter_filter, ← List.filter_filter, hst k]
    · intro hne
      rw [displayTasks_output, if_neg hne]
  · intro a b c d ha hb hc hd hm
    have hra : getPriorityRank a.priority = 1 := by rw [ha]; decide
    have hrb : getPriorityRank b.priority = 3 := by rw [hb]; decide
    have hrc : getPriorityRank c.priority = 2 := by rw [hc]; decide
    have hrd : getPriorityRank d.priority = 3 := by rw [hd]; decide
    obtain ⟨hp, hs, hst, _⟩ := librarySort_small m.tasks (by rw [hm]; simp)
    have hl : listedTasks librarySort m true = librarySort m.tasks := by
      unfold listedTasks
      simp
    rw [hl]
    rw [hm] at hp hs hst
    rw [hm]
    rcases sorted_four hra hrb hrc hrd hp hs with h | h
    · exact h
    · have h3 := hst 3
      rw [h] at h3
      simp [List.filter_cons, hra, hrb, hrc, hrd] at h3
      rw [h, h3.1]

/-- Witness for `displayTasks_sorted_by_rank`: the store with priorities Low,
High, Medium, High is listed by the `std::sort` of libstdc++ in the order of
the ids 2, 4, 3, 1. -/
theorem displayTasks_sorted_by_rank_witness :
    listedTasks librarySort
      (TaskManager.mk [⟨"a", "Low", false, 1⟩, ⟨"b", "High", false, 2⟩,
        ⟨"c", "Medium", false, 3⟩, ⟨"d", "High", false, 4⟩] 5) true
      = [⟨"b", "High", false, 2⟩, ⟨"d", "High", false, 4⟩, ⟨"c", "Medium", false, 3⟩,
          ⟨"a", "Low", false, 1⟩] :=
  (displayTasks_sorted_by_rank stableSort stableSort_isStdSort
    (TaskManager.mk [⟨"a", "Low", false, 1⟩, ⟨"b", "High", false, 2⟩,
        ⟨"c", "Medium", false, 3⟩, ⟨"d", "High", false, 4⟩] 5) true).2.2.2
    ⟨"a", "Low", false, 1⟩ ⟨"b", "High", false, 2⟩ ⟨"c", "Medium", false, 3⟩
    ⟨"d", "High", false, 4⟩ rfl rfl rfl rfl rfl

/-- C4 fails as stated: the 17 tasks of `seventeenTasks` all have the priority
`Medium` and the ids 1 to 17 in insertion order, and with the `std::sort` of
libstdc++ `displayTasks` lists them in the order 9, 17, 16, ..., 10, 1, 8, 7,
..., 2. -/
theorem displayTasks_order_counterexample :
    (∀ t ∈ seventeenTasks.tasks, t.priority = "Medium") ∧
    seventeenTasks.tasks.map Task.id
      = [1, 2, 3, 4, 5, 6, 7, 8, 9, 10, 11, 12, 13, 14, 15, 16, 17] ∧
    stdSort Task.comparePriority seventeenTasks.tasks
      = some (listedTasks librarySort seventeenTasks true) ∧
    (listedTasks librarySort seventeenTasks true).map Task.id
      = [9, 17, 16, 15, 14, 13, 12, 11, 10, 1, 8, 7, 6, 5, 4, 3, 2] ∧
    (displayTasks librarySort seventeenTasks true).2
      = tableHeader :: separator :: (listedTasks librarySort seventeenTasks true).map row := by
  refine ⟨by decide, by decide, by decide, by decide, by decide⟩

/-! ## Display truncation (C9) -/

theorem row_data (t : Task) :
    (row t).data =
      (to_string t.id).data ++ List.replicate (5 - (to_string t.id).data.length) ' ' ++
      (if t.description.data.length ≤ 40 then t.description.data
        else t.description.data.take 37 ++ ['.', '.', '.']) ++
      List.replicate
        (40 - (if t.description.data.length ≤ 40 then t.description.data
          else t.description.data.take 37 ++ ['.', '.', '.']).length) ' ' ++
      t.priority.data ++ List.replicate (15 - t.priority.data.length) ' ' ++
      (if t.isCompleted = true then "Completed".data else "Pending".data) ++ ['\n'] := by
  have hnl : ("\n" : String).data = ['\n'] := rfl
  have hdots : ("..." : String).data = ['.', '.', '.'] := rfl
  have hshown : (shownDescription t).data =
      (if t.description.data.length ≤ 40 then t.description.data
        else t.description.data.take 37 ++ ['.', '.', '.']) := by
    unfold shownDescription
    by_cases h : t.description.data.length ≤ 40
    · have h2 : ¬ t.description.length > 40 := by
        show ¬ t.description.data.length > 40
        omega
      rw [if_neg h2, if_pos h]
    · have h2 : t.description.length > 40 := by
        show t.description.data.length > 40
        omega
      rw [if_pos h2, if_neg h, String.data_append, hdots]
  have hstat : (if t.isCompleted = true then "Completed" else "Pending" : String).data
      = (if t.isCompleted = true then "Completed".data else "Pending".data) := by
    cases t.isCompleted <;> rfl
  unfold row setw
  simp only [String.data_append, hnl, hshown, hstat, String.length, List.append_assoc]

/-- C9. For a `std::sort` that meets its contract and every task of the store
that is listed, `displayTasks` writes the row made of the id padded to 5
columns, the description text padded to 40 columns, the priority padded to 15
columns, the status and a newline, where the description text is the stored
description when its length is at most 40 and otherwise its first 37
characters followed by `...`. The description text is never longer than 40
characters, and the store after `displayTasks` is the store before it, with
the task and its full description in it. -/
theorem displayTasks_truncates_description (sort : List Task → List Task)
    (hsort : IsStdSort sort) (m : TaskManager) (showCompleted : Bool) (t : Task)
    (ht : t ∈ m.tasks) (hlisted : showCompleted = true ∨ t.isCompleted = false) :
    ∃ shown : List Char,
      shown = (if t.description.data.length ≤ 40 then t.description.data
        else t.description.data.take 37 ++ ['.', '.', '.']) ∧
      shown.length ≤ 40 ∧
      String.mk
        ((to_string t.id).data ++ List.replicate (5 - (to_string t.id).data.length) ' ' ++
          shown ++ List.replicate (40 - shown.length) ' ' ++
          t.priority.data ++ List.replicate (15 - t.priority.data.length) ' ' ++
          (if t.isCompleted = true then "Completed".data else "Pending".data) ++ ['\n'])
        ∈ (displayTasks sort m showCompleted).2 ∧
      (displayTasks sort m showCompleted).1 = m ∧
      t ∈ (displayTasks sort m showCompleted).1.tasks := by
  have hstore : (displayTasks sort m showCompleted).1 = m := by
    unfold displayTasks
    split <;> rfl
  refine ⟨_, rfl, ?_, ?_, hstore, by rw [hstore]; exact ht⟩
  · by_cases h : t.description.data.length ≤ 40
    · rw [if_pos h]; exact h
    · rw [if_neg h]
      simp only [List.length_append, List.length_take, List.length_cons, List.length_nil]
      omega
  · have hne : m.tasks ≠ [] := by
      intro he
      rw [he] at ht
      simp at ht
    have hmem : t ∈ listedTasks sort m showCompleted := by
      rw [(listedTasks_perm hsort m showCompleted).mem_iff, List.mem_filter]
      refine ⟨ht, ?_⟩
      rcases hlisted with h | h <;> simp [h]
    rw [displayTasks_output, if_neg hne]
    have hrow : row t ∈ (listedTasks sort m showCompleted).map row :=
      List.mem_map.2 ⟨t, hmem, rfl⟩
    have heq : row t = String.mk (row t).data := rfl
    rw [heq, row_data] at hrow
    exact List.mem_cons_of_mem _ (List.mem_cons_of_mem _ hrow)

/-- Witness for `displayTasks_truncates_description`: a description of 45
characters is written as its first 37 characters and `...`, on a store of two
tasks listed with the completed ones. -/
theorem displayTasks_truncates_description_witness :
    "7    abcdefghijklmnopqrstuvwxyzabcdefghijk...Low            Pending\n"
      ∈ (displayTasks stableSort
          (TaskManager.mk
            [⟨"abcdefghijklmnopqrstuvwxyzabcdefghijklmnopqrs", "Low", false, 7⟩,
             ⟨"short", "High", true, 8⟩] 9) true).2 := by
  obtain ⟨shown, h1, _, h3, _⟩ := displayTasks_truncates_description stableSort
    stableSort_isStdSort
    (TaskManager.mk
      [⟨"abcdefghijklmnopqrstuvwxyzabcdefghijklmnopqrs", "Low", false, 7⟩,
       ⟨"short", "High", true, 8⟩] 9) true
    ⟨"abcdefghijklmnopqrstuvwxyzabcdefghijklmnopqrs", "Low", false, 7⟩
    (by decide) (by decide)
  subst h1
  exact h3

/-! ## Lemmas on the operations -/

theorem wrapInt_eq {x : Int} (h1 : INT_MIN ≤ x) (h2 : x ≤ INT_MAX) : wrapInt x = x := by
  unfold INT_MIN at h1
  unfold INT_MAX at h2
  unfold wrapInt
  omega

theorem map_id_modify {f : Task → Task} (hf : ∀ t, (f t).id = t.id) (l : List Task) (i : Nat) :
    (l.modify f i).map Task.id = l.map Task.id := by
  induction l generalizing i with
  | nil => simp
  | cons a l ih =>
    cases i with
    | zero => simp [hf]
    | succ i => simp [ih]

theorem mem_modify {f : Task → Task} {l : List Task} {i : Nat} {t : Task}
    (h : t ∈ l.modify f i) : t ∈ l ∨ ∃ u ∈ l, t = f u := by
  induction l generalizing i with
  | nil => simp at h
  | cons a l ih =>
    cases i with
    | zero =>
      simp only [List.modify_zero_cons, List.mem_cons] at h
      rcases h with h | h
      · exact Or.inr ⟨a, by simp, h⟩
      · exact Or.inl (by simp [h])
    | succ i =>
      simp only [List.modify_succ_cons, List.mem_cons] at h
      rcases h with h | h
      · exact Or.inl (by simp [h])
      · rcases ih h with h | ⟨u, hu, hfu⟩
        · exact Or.inl (by simp [h])
        · exact Or.inr ⟨u, by simp [hu], hfu⟩

theorem validatePriority_iff (p : String) :
    validatePriority p = true ↔ p = "High" ∨ p = "Medium" ∨ p = "Low" := by
  simp [validatePriority, or_assoc]

theorem readPriority_valid {input rest : List String} {p : String}
    (h : readPriority input = some (p, rest)) : validatePriority p = true := by
  induction input with
  | nil => simp [readPriority] at h
  | cons line more ih =>
    by_cases hv : validatePriority line = true
    · simp only [readPriority, hv, if_true, Option.some.injEq, Prod.mk.injEq] at h
      rw [← h.1]; exact hv
    · simp only [readPriority, hv, Bool.false_eq_true, if_false] at h
      exact ih h

theorem readNewPriority_valid {input : List String} {p : String}
    (h : readNewPriority input = some p) : validatePriority p = true := by
  induction input with
  | nil => simp [readNewPriority] at h
  | cons line more ih =>
    by_cases he : line = ""
    · simp [readNewPriority, he] at h
    · by_cases hv : validatePriority line = true
      · simp only [readNewPriority, he, if_false, hv, if_true, Option.some.injEq] at h
        rw [← h]; exact hv
      · simp only [readNewPriority, he, if_false, hv, Bool.false_eq_true] at h
        exact ih h

theorem addTask_some {m m1 : TaskManager} {input : List String} (h : addTask m input = some m1) :
    ∃ t : Task, m1.tasks = m.tasks ++ [t] ∧ t.id = m.nextTaskId ∧ t.isCompleted = false ∧
      t.description ≠ "" ∧ validatePriority t.priority = true ∧
      m1.nextTaskId = wrapInt (m.nextTaskId + 1) := by
  unfold addTask at h
  cases hd : readDescription input with
  | none => simp [hd] at h
  | some dr =>
    obtain ⟨d, rest⟩ := dr
    cases hp : readPriority rest with
    | none => simp [hd, hp] at h
    | some pr =>
      obtain ⟨p, rest2⟩ := pr
      simp only [hd, hp, Option.some.injEq] at h
      subst h
      refine ⟨_, rfl, rfl, rfl, ?_, readPriority_valid hp, rfl⟩
      clear hp
      induction input with
      | nil => simp [readDescription] at hd
      | cons line more ih =>
        by_cases he : line = ""
        · simp only [readDescription, he, if_true] at hd
          exact ih hd
        · simp only [readDescription, he, if_false, Option.some.injEq, Prod.mk.injEq] at hd
          show d ≠ ""
          rw [← hd.1]; exact he

theorem editTask_ids (m : TaskManager) (taskId : Int) (input : List String) :
    (editTask m taskId input).tasks.map Task.id = m.tasks.map Task.id ∧
    (editTask m taskId input).nextTaskId = m.nextTaskId := by
  unfold editTask
  split
  · exact ⟨rfl, rfl⟩
  · split
    · exact ⟨rfl, rfl⟩
    · refine ⟨?_, rfl⟩
      dsimp only
      apply map_id_modify
      intro t
      rfl

theorem markTaskCompleted_ids (m : TaskManager) (taskId : Int) :
    (markTaskCompleted m taskId).tasks.map Task.id = m.tasks.map Task.id ∧
    (markTaskCompleted m taskId).nextTaskId = m.nextTaskId := by
  unfold markTaskCompleted
  split
  · exact ⟨rfl, rfl⟩
  · split
    · exact ⟨rfl, rfl⟩
    · refine ⟨?_, rfl⟩
      dsimp only
      apply map_id_modify
      intro t
      rfl

theorem deleteTask_sublist (m : TaskManager) (taskId : Int) :
    (deleteTask m taskId).tasks.Sublist m.tasks ∧
    (deleteTask m taskId).nextTaskId = m.nextTaskId := by
  unfold deleteTask
  split
  · exact ⟨List.Sublist.refl _, rfl⟩
  · split
    · exact ⟨List.Sublist.refl _, rfl⟩
    · exact ⟨List.eraseIdx_sublist _ _, rfl⟩

/-- Effect of one operation on the ids: it adds a task with the id
`nextTaskId` and steps the counter, or it leaves a sublist of the ids and the
counter as it was. -/
theorem step_ids {m m1 : TaskManager} {op : Op} {iss : Option Int}
    (h : step m op = some (m1, iss)) :
    (addCount [op] = 1 ∧ iss = some m.nextTaskId ∧
      m1.tasks.map Task.id = m.tasks.map Task.id ++ [m.nextTaskId] ∧
      m1.nextTaskId = wrapInt (m.nextTaskId + 1)) ∨
    (addCount [op] = 0 ∧ iss = none ∧
      (m1.tasks.map Task.id).Sublist (m.tasks.map Task.id) ∧
      m1.nextTaskId = m.nextTaskId) := by
  cases op with
  | add input =>
    left
    simp only [step, Option.map_eq_some'] at h
    obtain ⟨m2, hadd, heq⟩ := h
    simp only [Prod.mk.injEq] at heq
    obtain ⟨rfl, rfl⟩ := heq
    obtain ⟨t, ht, hid, _, _, _, hn⟩ := addTask_some hadd
    refine ⟨rfl, rfl, ?_, hn⟩
    rw [ht]; simp [hid]
  | edit taskId input =>
    right
    simp only [step, Option.some.injEq, Prod.mk.injEq] at h
    obtain ⟨rfl, rfl⟩ := h
    have := editTask_ids m taskId input
    exact ⟨rfl, rfl, by rw [this.1], this.2⟩
  | markCompleted taskId =>
    right
    simp only [step, Option.some.injEq, Prod.mk.injEq] at h
    obtain ⟨rfl, rfl⟩ := h
    have := markTaskCompleted_ids m taskId
    exact ⟨rfl, rfl, by rw [this.1], this.2⟩
  | delete taskId =>
    right
    simp only [step, Option.some.injEq, Prod.mk.injEq] at h
    obtain ⟨rfl, rfl⟩ := h
    have := deleteTask_sublist m taskId
    exact ⟨rfl, rfl, this.1.map _, this.2⟩

theorem addCount_cons (op : Op) (ops : List Op) :
    addCount (op :: ops) = addCount [op] + addCount ops := by
  cases op <;> simp [addCount]
  omega

/-- Invariant of the ids over a run without overflow of the counter. -/
theorem runOps_ids (ops : List Op) :
    ∀ (m0 m : TaskManager) (issued : List Int),
      (m0.tasks.map Task.id).Nodup → (∀ i ∈ m0.tasks.map Task.id, i < m0.nextTaskId) →
      INT_MIN ≤ m0.nextTaskId → m0.nextTaskId + addCount ops ≤ INT_MAX →
      runOps m0 ops = some (m, issued) →
      (m.tasks.map Task.id).Nodup ∧ issued.Pairwise (· < ·) ∧
        (∀ i ∈ issued, m0.nextTaskId ≤ i) ∧ issued.length = addCount ops := by
  induction ops with
  | nil =>
    intro m0 m issued hn _ _ _ hrun
    simp only [runOps, Option.some.injEq, Prod.mk.injEq] at hrun
    obtain ⟨rfl, rfl⟩ := hrun
    exact ⟨hn, List.Pairwise.nil, by simp, rfl⟩
  | cons op ops ih =>
    intro m0 m issued hn hlt hmin hb hrun
    rw [addCount_cons] at hb
    simp only [runOps] at hrun
    cases hs : step m0 op with
    | none => simp [hs] at hrun
    | some r =>
      obtain ⟨m1, iss⟩ := r
      cases hr : runOps m1 ops with
      | none => simp [hs, hr] at hrun
      | some r2 =>
        obtain ⟨m2, ids⟩ := r2
        simp only [hs, hr, Option.some.injEq, Prod.mk.injEq] at hrun
        obtain ⟨rfl, rfl⟩ := hrun
        rw [addCount_cons]
        rcases step_ids hs with ⟨hc, hiss, hids, hnext⟩ | ⟨hc, hiss, hsub, hnext⟩
        · rw [hc] at hb ⊢
          have hw : wrapInt (m0.nextTaskId + 1) = m0.nextTaskId + 1 :=
            wrapInt_eq (by omega) (by omega)
          rw [hw] at hnext
          have hn1 : (m1.tasks.map Task.id).Nodup := by
            rw [hids, List.nodup_append]
            refine ⟨hn, by simp, ?_⟩
            intro i hi hi2
            simp only [List.mem_singleton] at hi2
            have := hlt i hi
            omega
          have hlt1 : ∀ i ∈ m1.tasks.map Task.id, i < m1.nextTaskId := by
            intro i hi
            rw [hids, List.mem_append] at hi
            rcases hi with hi | hi
            · have := hlt i hi; omega
            · simp only [List.mem_singleton] at hi; omega
          obtain ⟨h1, h2, h3, h4⟩ := ih m1 m2 ids hn1 hlt1 (by omega) (by omega) hr
          subst hiss
          simp only [Option.toList, List.singleton_append, List.pairwise_cons, List.mem_cons,
            forall_eq_or_imp, List.length_cons]
          refine ⟨h1, ⟨?_, h2⟩, ⟨le_refl _, ?_⟩, by omega⟩
          · intro i hi; have := h3 i hi; omega
          · intro i hi; have := h3 i hi; omega
        · rw [hc] at hb ⊢
          have hn1 : (m1.tasks.map Task.id).Nodup := hn.sublist hsub
          have hlt1 : ∀ i ∈ m1.tasks.map Task.id, i < m1.nextTaskId := by
            intro i hi
            rw [hnext]
            exact hlt i (hsub.subset hi)
          obtain ⟨h1, h2, h3, h4⟩ := ih m1 m2 ids hn1 hlt1 (by omega) (by omega) hr
          subst hiss
          simp only [Option.toList, List.nil_append]
          refine ⟨h1, h2, ?_, by omega⟩
          intro i hi; have := h3 i hi; omega


/-! ## Lemmas on loading -/

theorem stoi_range {s : String} {n : Int} (h : stoi s = some n) : INT_MIN ≤ n ∧ n ≤ INT_MAX := by
  unfold stoi at h
  simp only at h
  split_ifs at h <;> (cases h; assumption)

theorem fromFileString_range {line : String} {t : Task} (h : Task.fromFileString line = some t) :
    INT_MIN ≤ t.id ∧ t.id ≤ INT_MAX := by
  unfold Task.fromFileString at h
  simp only at h
  split at h
  · simp at h
  · rename_i n hn
    simp only [Option.some.injEq] at h
    rw [← h]
    exact stoi_range hn

theorem loadLines_spec (lines : List String) :
    ∀ (m m1 : TaskManager), loadLines lines m = some m1 →
      m.nextTaskId ≤ m1.nextTaskId ∧
      ∃ new : List Task, m1.tasks = m.tasks ++ new ∧
        ∀ t ∈ new, INT_MIN ≤ t.id ∧ t.id ≤ INT_MAX ∧ (t.id < INT_MAX → t.id < m1.nextTaskId) := by
  induction lines with
  | nil =>
    intro m m1 h
    simp only [loadLines, Option.some.injEq] at h
    subst h
    exact ⟨le_refl _, [], by simp, by simp⟩
  | cons line rest ih =>
    intro m m1 h
    simp only [loadLines] at h
    cases hf : Task.fromFileString line with
    | none => simp [hf] at h
    | some task =>
      simp only [hf] at h
      obtain ⟨hle, new, hnew, hall⟩ := ih _ _ h
      simp only at hle hnew
      have hr := fromFileString_range hf
      refine ⟨le_trans (le_max_left _ _) hle, task :: new, by simp [hnew], ?_⟩
      intro t ht
      rcases List.mem_cons.1 ht with rfl | ht
      · refine ⟨hr.1, hr.2, fun hlt => ?_⟩
        have hw : wrapInt (t.id + 1) = t.id + 1 :=
          wrapInt_eq (by have := hr.1; omega) (by omega)
        have : t.id + 1 ≤ max m.nextTaskId (wrapInt (t.id + 1)) := by
          rw [hw]; exact le_max_right _ _
        omega
      · exact hall t ht

theorem init_spec {file : File} {m0 : TaskManager} (h : init file = some m0) :
    1 ≤ m0.nextTaskId ∧
      ∀ t ∈ m0.tasks, INT_MIN ≤ t.id ∧ t.id ≤ INT_MAX ∧ (t.id < INT_MAX → t.id < m0.nextTaskId) := by
  unfold init loadFromFile at h
  cases file with
  | none =>
    simp only [Option.some.injEq] at h
    subst h
    exact ⟨le_refl _, by simp⟩
  | some text =>
    simp only at h
    obtain ⟨hle, new, hnew, hall⟩ := loadLines_spec _ _ _ h
    simp only [List.nil_append] at hnew
    rw [hnew]
    exact ⟨hle, hall⟩

/-! ## Ids (C2) -/

/-- C2, as the code has it. Start from the store the constructor produces: the
empty store with `nextTaskId = 1` when there is no file, or a loaded store
whose ids are pairwise distinct and below `INT_MAX`. After every sequence of
`addTask`, `editTask`, `markTaskCompleted` and `deleteTask` operations that
returns and keeps the counter within `int`, the ids in the store are pairwise
distinct, the ids given to new tasks increase strictly in the order they were
given (so each is greater than every id given earlier in the session, whether
or not that task was deleted since), and each is greater than every id of the
store at the start. -/
theorem ids_unique_and_increasing (file : File) (m0 m : TaskManager) (ops : List Op)
    (issued : List Int)
    (hinit : init file = some m0)
    (hnodup : (m0.tasks.map Task.id).Nodup)
    (hmax : ∀ t ∈ m0.tasks, t.id < INT_MAX)
    (hbound : m0.nextTaskId + addCount ops ≤ INT_MAX)
    (hrun : runOps m0 ops = some (m, issued)) :
    (m.tasks.map Task.id).Nodup ∧
    issued.Pairwise (· < ·) ∧
    (∀ i ∈ issued, ∀ t ∈ m0.tasks, t.id < i) ∧
    issued.length = addCount ops := by
  obtain ⟨h1, hall⟩ := init_spec hinit
  have hlt : ∀ i ∈ m0.tasks.map Task.id, i < m0.nextTaskId := by
    intro i hi
    obtain ⟨t, ht, rfl⟩ := List.mem_map.1 hi
    exact (hall t ht).2.2 (hmax t ht)
  have hmin : INT_MIN ≤ m0.nextTaskId := by
    unfold INT_MIN; omega
  obtain ⟨r1, r2, r3, r4⟩ := runOps_ids ops m0 m issued hnodup hlt hmin hbound hrun
  refine ⟨r1, r2, ?_, r4⟩
  intro i hi t ht
  have := hlt t.id (List.mem_map.2 ⟨t, ht, rfl⟩)
  have := r3 i hi
  omega

/-- Witness for `ids_unique_and_increasing`: a loaded store with ids 1 and 5;
a task is added (id 6), task 6 is deleted, and a task is added (id 7). -/
theorem ids_unique_and_increasing_witness :
    ((TaskManager.mk [⟨"a", "High", false, 1⟩, ⟨"b", "Low", true, 5⟩, ⟨"y", "Low", false, 7⟩]
        8).tasks.map Task.id).Nodup ∧
    ([6, 7] : List Int).Pairwise (· < ·) ∧
    (∀ i ∈ ([6, 7] : List Int), ∀ t ∈ (TaskManager.mk
        [⟨"a", "High", false, 1⟩, ⟨"b", "Low", true, 5⟩] 6).tasks, t.id < i) ∧
    ([6, 7] : List Int).length
      = addCount [Op.add ["x", "High"], Op.delete 6, Op.add ["y", "Low"]] :=
  ids_unique_and_increasing (some "a|High|0|1\nb|Low|1|5\n")
    (TaskManager.mk [⟨"a", "High", false, 1⟩, ⟨"b", "Low", true, 5⟩] 6)
    (TaskManager.mk [⟨"a", "High", false, 1⟩, ⟨"b", "Low", true, 5⟩, ⟨"y", "Low", false, 7⟩] 8)
    [Op.add ["x", "High"], Op.delete 6, Op.add ["y", "Low"]] [6, 7]
    (by decide) (by decide) (by decide) (by decide) (by decide)

/-- C2 fails as stated for a loaded store. In a first session two tasks whose
descriptions contain the separator are added to the empty store and saved;
the constructor of the next session loads both with id 0, so before any
operation the ids in the store are not pairwise distinct. -/
theorem ids_unique_counterexample :
    (((init none).bind (fun m => addTask m ["a|b", "High"])).bind
        (fun m => addTask m ["c|d", "Low"])).map (fun m => saveToFile m true none)
      = some (some "a|b|High|0|1\nc|d|Low|0|2\n") ∧
    init (some "a|b|High|0|1\nc|d|Low|0|2\n")
      = some (TaskManager.mk [⟨"a", "b", false, 0⟩, ⟨"c", "d", false, 0⟩] 1) ∧
    runOps (TaskManager.mk [⟨"a", "b", false, 0⟩, ⟨"c", "d", false, 0⟩] 1) []
      = some (TaskManager.mk [⟨"a", "b", false, 0⟩, ⟨"c", "d", false, 0⟩] 1, []) ∧
    ¬ ((TaskManager.mk [⟨"a", "b", false, 0⟩, ⟨"c", "d", false, 0⟩] 1).tasks.map Task.id).Nodup := by
  decide

/-! ## Priorities (C8) -/

theorem step_priorities {m m1 : TaskManager} {op : Op} {iss : Option Int}
    (hv : ∀ t ∈ m.tasks, validatePriority t.priority = true)
    (h : step m op = some (m1, iss)) :
    ∀ t ∈ m1.tasks, validatePriority t.priority = true := by
  cases op with
  | add input =>
    simp only [step, Option.map_eq_some'] at h
    obtain ⟨m2, hadd, heq⟩ := h
    simp only [Prod.mk.injEq] at heq
    obtain ⟨rfl, rfl⟩ := heq
    obtain ⟨t, ht, _, _, _, hp, _⟩ := addTask_some hadd
    intro u hu
    rw [ht, List.mem_append] at hu
    rcases hu with hu | hu
    · exact hv u hu
    · simp only [List.mem_singleton] at hu
      rw [hu]; exact hp
  | edit taskId input =>
    simp only [step, Option.some.injEq, Prod.mk.injEq] at h
    obtain ⟨rfl, rfl⟩ := h
    unfold editTask
    split
    · exact hv
    · split
      · exact hv
      · intro u hu
        dsimp only at hu
        rcases mem_modify hu with hu | ⟨w, hw, rfl⟩
        · exact hv u hu
        · dsimp only
          cases hnp : readNewPriority input.tail with
          | none => exact hv w hw
          | some p => exact readNewPriority_valid hnp
  | markCompleted taskId =>
    simp only [step, Option.some.injEq, Prod.mk.injEq] at h
    obtain ⟨rfl, rfl⟩ := h
    unfold markTaskCompleted
    split
    · exact hv
    · split
      · exact hv
      · intro u hu
        dsimp only at hu
        rcases mem_modify hu with hu | ⟨w, hw, rfl⟩
        · exact hv u hu
        · exact hv w hw
  | delete taskId =>
    simp only [step, Option.some.injEq, Prod.mk.injEq] at h
    obtain ⟨rfl, rfl⟩ := h
    intro u hu
    exact hv u ((deleteTask_sublist m taskId).1.subset hu)

theorem runOps_priorities (ops : List Op) :
    ∀ (m0 m : TaskManager) (issued : List Int),
      (∀ t ∈ m0.tasks, validatePriority t.priority = true) →
      runOps m0 ops = some (m, issued) →
      ∀ t ∈ m.tasks, validatePriority t.priority = true := by
  induction ops with
  | nil =>
    intro m0 m issued hv hrun
    simp only [runOps, Option.some.injEq, Prod.mk.injEq] at hrun
    obtain ⟨rfl, rfl⟩ := hrun
    exact hv
  | cons op ops ih =>
    intro m0 m issued hv hrun
    simp only [runOps] at hrun
    cases hs : step m0 op with
    | none => simp [hs] at hrun
    | some r =>
      obtain ⟨m1, iss⟩ := r
      cases hr : runOps m1 ops with
      | none => simp [hs, hr] at hrun
      | some r2 =>
        obtain ⟨m2, ids⟩ := r2
        simp only [hs, hr, Option.some.injEq, Prod.mk.injEq] at hrun
        obtain ⟨rfl, rfl⟩ := hrun
        exact ih m1 m2 ids (step_priorities hv hs) hr

/-- C8, as the code has it. From a store in which every priority is one of
`High`, `Medium`, `Low` (such as the empty store the constructor produces
when there is no file), every sequence of `addTask`, `editTask`,
`markTaskCompleted` and `deleteTask` operations with any input leads to a
store in which every priority is one of `High`, `Medium`, `Low`. -/
theorem operations_keep_priorities_enumerated (m0 m : TaskManager) (ops : List Op)
    (issued : List Int)
    (hinit : ∀ t ∈ m0.tasks, t.priority = "High" ∨ t.priority = "Medium" ∨ t.priority = "Low")
    (hrun : runOps m0 ops = some (m, issued)) :
    ∀ t ∈ m.tasks, t.priority = "High" ∨ t.priority = "Medium" ∨ t.priority = "Low" := by
  have hv : ∀ t ∈ m0.tasks, validatePriority t.priority = true :=
    fun t ht => (validatePriority_iff _).2 (hinit t ht)
  intro t ht
  exact (validatePriority_iff _).1 (runOps_priorities ops m0 m issued hv hrun t ht)

/-- Witness for `operations_keep_priorities_enumerated`: from the empty store
of the constructor, a task is added after a rejected priority, edited with a
rejected and then an accepted priority, and marked completed. -/
theorem operations_keep_priorities_enumerated_witness :
    init none = some (TaskManager.mk [] 1) ∧
    ∀ t ∈ (TaskManager.mk [⟨"x", "Low", true, 1⟩] 2).tasks,
      t.priority = "High" ∨ t.priority = "Medium" ∨ t.priority = "Low" :=
  ⟨rfl, operations_keep_priorities_enumerated (TaskManager.mk [] 1)
    (TaskManager.mk [⟨"x", "Low", true, 1⟩] 2)
    [Op.add ["x", "Urgent", "High"], Op.edit 1 ["", "low", "Low"], Op.markCompleted 1] [1]
    (by decide) (by decide)⟩

/-- C8 fails as stated. From the empty store a task with the description
`x|Urgent` and the priority `High` is added and saved; the constructor of the
next session loads it with the priority `Urgent`. -/
theorem priorities_enumerated_counterexample :
    ((init none).bind (fun m => addTask m ["x|Urgent", "High"])).map
        (fun m => saveToFile m true none)
      = some (some "x|Urgent|High|0|1\n") ∧
    init (some "x|Urgent|High|0|1\n") = some (TaskManager.mk [⟨"x", "Urgent", false, 0⟩] 1) ∧
    ¬ (∀ t ∈ (TaskManager.mk [⟨"x", "Urgent", false, 0⟩] 1).tasks,
        t.priority = "High" ∨ t.priority = "Medium" ∨ t.priority = "Low") := by
  decide


/-! ## Lemmas on the file format -/

theorem flag_data (b : Bool) :
    '|' ∉ (if b then "1" else "0" : String).data ∧ '\n' ∉ (if b then "1" else "0" : String).data ∧
    decide ((if b then "1" else "0" : String) = "1") = b := by
  cases b <;> decide

theorem toFileString_data (t : Task) :
    t.toFileString.data = t.description.data ++ '|' :: (t.priority.data ++ '|' ::
      ((if t.isCompleted then "1" else "0" : String).data ++ '|' :: (to_string t.id).data)) := by
  have hbar : ("|" : String).data = ['|'] := rfl
  simp only [Task.toFileString, String.data_append, hbar, List.append_assoc, List.singleton_append,
    List.cons_append, List.nil_append]

theorem fromFileString_toFileString {t : Task} (h : t.Storable) :
    Task.fromFileString t.toFileString = some t := by
  obtain ⟨hd1, hd2, hp1, hp2, hi1, hi2⟩ := h
  obtain ⟨hf1, hf2, hf3⟩ := flag_data t.isCompleted
  have g1 : getline t.toFileString '|' = (t.description,
      String.mk (t.priority.data ++ '|' ::
        ((if t.isCompleted then "1" else "0" : String).data ++ '|' :: (to_string t.id).data))) := by
    unfold getline
    rw [toFileString_data, getlineChars_append _ _ _ hd1]
  have g2 : getline (String.mk (t.priority.data ++ '|' ::
        ((if t.isCompleted then "1" else "0" : String).data ++ '|' :: (to_string t.id).data))) '|'
      = (t.priority, String.mk ((if t.isCompleted then "1" else "0" : String).data ++
          '|' :: (to_string t.id).data)) := by
    unfold getline
    rw [getlineChars_append _ _ _ hp1]
  have g3 : getline (String.mk ((if t.isCompleted then "1" else "0" : String).data ++
          '|' :: (to_string t.id).data)) '|'
      = ((if t.isCompleted then "1" else "0" : String), to_string t.id) := by
    unfold getline
    rw [getlineChars_append _ _ _ hf1]
  have g4 : getline (to_string t.id) '\n' = (to_string t.id, String.mk []) := by
    unfold getline
    rw [getlineChars_no_delim _ _ (to_string_no_delim t.id).2]
  unfold Task.fromFileString
  simp only [g1, g2, g3, g4, stoi_to_string hi1 hi2, hf3]

theorem toFileString_no_newline {t : Task} (h : t.Storable) : '\n' ∉ t.toFileString.data := by
  obtain ⟨_, hd2, _, hp2, _, _⟩ := h
  obtain ⟨_, hf2, _⟩ := flag_data t.isCompleted
  have hn := (to_string_no_delim t.id).2
  have hb : ('\n' : Char) ≠ '|' := by decide
  rw [toFileString_data]
  simp only [List.mem_append, List.mem_cons, not_or]
  exact ⟨hd2, hb, hp2, hb, hf2, hb, hn⟩

theorem foldl_fileText_data (ts : List Task) (acc : String) :
    (ts.foldl (fun out t => out ++ t.toFileString ++ "\n") acc).data
      = acc.data ++ ts.flatMap (fun t => t.toFileString.data ++ ['\n']) := by
  induction ts generalizing acc with
  | nil => simp
  | cons t ts ih =>
    have hnl : ("\n" : String).data = ['\n'] := rfl
    simp only [List.foldl_cons, ih, String.data_append, hnl, List.flatMap_cons,
      List.append_assoc]

theorem readLines_flatMap (ts : List Task) (h : ∀ t ∈ ts, t.Storable) :
    readLines (ts.flatMap (fun t => t.toFileString.data ++ ['\n'])) = ts.map Task.toFileString := by
  induction ts with
  | nil => simp [readLines]
  | cons t ts ih =>
    have ht := toFileString_no_newline (h t (by simp))
    simp only [List.flatMap_cons, List.append_assoc, List.singleton_append, List.map_cons]
    rw [readLines_append _ _ ht, ih (fun u hu => h u (by simp [hu]))]

theorem readLines_fileText (ts : List Task) (h : ∀ t ∈ ts, t.Storable) :
    readLines (fileText ts).data = ts.map Task.toFileString := by
  unfold fileText
  rw [foldl_fileText_data]
  have : ("" : String).data = [] := rfl
  rw [this, List.nil_append]
  exact readLines_flatMap ts h

theorem loadLines_map (ts : List Task) (h : ∀ t ∈ ts, t.Storable) :
    ∀ m : TaskManager, loadLines (ts.map Task.toFileString) m =
      some { tasks := m.tasks ++ ts,
             nextTaskId := ts.foldl (fun n t => max n (wrapInt (t.id + 1))) m.nextTaskId } := by
  induction ts with
  | nil => intro m; simp [loadLines]
  | cons t ts ih =>
    intro m
    simp only [List.map_cons, loadLines, fromFileString_toFileString (h t (by simp))]
    rw [ih (fun u hu => h u (by simp [hu]))]
    simp

/-- Loading what `saveToFile` wrote for storable tasks gives the tasks back,
with the counter set from their ids. -/
theorem loadFromFile_saveToFile (m m0 : TaskManager) (old : File)
    (h : ∀ t ∈ m.tasks, t.Storable) :
    loadFromFile m0 (saveToFile m true old) =
      some { tasks := m.tasks,
             nextTaskId := m.tasks.foldl (fun n t => max n (wrapInt (t.id + 1))) 1 } := by
  unfold saveToFile loadFromFile
  simp only [if_true]
  rw [readLines_fileText _ h, loadLines_map _ h]
  simp

theorem validPriority_no_delim {p : String} (h : p = "High" ∨ p = "Medium" ∨ p = "Low") :
    '|' ∉ p.data ∧ '\n' ∉ p.data := by
  rcases h with rfl | rfl | rfl <;> decide

/-! ## Round trip (C1) -/

/-- C1, as the code has it. For every valid task collection whose descriptions
hold neither the separator `|` nor a newline, loading what `saveToFile` wrote
succeeds and gives the same tasks in the same order, and saving the loaded
store writes the same file again. -/
theorem save_load_round_trip (T : List Task) (n : Int) (m0 : TaskManager) (old old1 : File)
    (hvalid : ValidCollection T)
    (hsep : ∀ t ∈ T, '|' ∉ t.description.data ∧ '\n' ∉ t.description.data) :
    ∃ m1, loadFromFile m0 (saveToFile (TaskManager.mk T n) true old) = some m1 ∧
      m1.tasks = T ∧
      saveToFile m1 true old1 = saveToFile (TaskManager.mk T n) true old := by
  have hst : ∀ t ∈ (TaskManager.mk T n).tasks, t.Storable := by
    intro t ht
    obtain ⟨_, hp, hpos, hmax⟩ := hvalid.1 t ht
    obtain ⟨hp1, hp2⟩ := validPriority_no_delim hp
    exact ⟨(hsep t ht).1, (hsep t ht).2, hp1, hp2, by unfold INT_MIN; omega, hmax⟩
  refine ⟨_, loadFromFile_saveToFile (TaskManager.mk T n) m0 old hst, rfl, ?_⟩
  simp [saveToFile]

/-- Witness for `save_load_round_trip`: two tasks, one of them completed. -/
theorem save_load_round_trip_witness :
    ∃ m1, loadFromFile (TaskManager.mk [] 1)
        (saveToFile (TaskManager.mk [⟨"buy milk", "High", false, 1⟩, ⟨"call", "Low", true, 3⟩] 4)
          true none) = some m1 ∧
      m1.tasks = [⟨"buy milk", "High", false, 1⟩, ⟨"call", "Low", true, 3⟩] ∧
      saveToFile m1 true none =
        saveToFile (TaskManager.mk [⟨"buy milk", "High", false, 1⟩, ⟨"call", "Low", true, 3⟩] 4)
          true none :=
  save_load_round_trip [⟨"buy milk", "High", false, 1⟩, ⟨"call", "Low", true, 3⟩] 4
    (TaskManager.mk [] 1) none none (by unfold ValidCollection; decide) (by decide)

/-- C1 fails as stated: the collection with the one task `a|b` (priority
`High`, id 1) is valid, but what `saveToFile` writes for it is loaded as a
task with description `a`, priority `b` and id 0, and saving that store writes
a different line. -/
theorem save_load_round_trip_counterexample :
    ValidCollection [⟨"a|b", "High", false, 1⟩] ∧
    saveToFile (TaskManager.mk [⟨"a|b", "High", false, 1⟩] 2) true none
      = some "a|b|High|0|1\n" ∧
    loadFromFile (TaskManager.mk [] 1)
        (saveToFile (TaskManager.mk [⟨"a|b", "High", false, 1⟩] 2) true none)
      = some (TaskManager.mk [⟨"a", "b", false, 0⟩] 1) ∧
    saveToFile (TaskManager.mk [⟨"a", "b", false, 0⟩] 1) true none = some "a|b|0|0\n" := by
  refine ⟨by unfold ValidCollection; decide, by decide, by decide, by decide⟩

/-! ## The counter across a reload (C3) -/

theorem foldl_max_bound (ts : List Task) :
    ∀ a : Int, a ≤ ts.foldl (fun n t => max n (t.id + 1)) a ∧
      ∀ t ∈ ts, t.id + 1 ≤ ts.foldl (fun n t => max n (t.id + 1)) a := by
  induction ts with
  | nil => intro a; simp
  | cons u us ih =>
    intro a
    obtain ⟨h1, h2⟩ := ih (max a (u.id + 1))
    simp only [List.foldl_cons, List.mem_cons, forall_eq_or_imp]
    refine ⟨le_trans (le_max_left _ _) h1, le_trans (le_max_right _ _) h1, h2⟩

theorem foldl_max_attained (ts : List Task) :
    ∀ a : Int, ts.foldl (fun n t => max n (t.id + 1)) a = a ∨
      ∃ t ∈ ts, ts.foldl (fun n t => max n (t.id + 1)) a = t.id + 1 := by
  induction ts with
  | nil => intro a; left; rfl
  | cons u us ih =>
    intro a
    simp only [List.foldl_cons, List.mem_cons, exists_eq_or_imp]
    rcases ih (max a (u.id + 1)) with h | ⟨t, ht, h⟩
    · rcases max_cases a (u.id + 1) with hm | hm
      · left; rw [h, hm.1]
      · right; left; rw [h, hm.1]
    · right; right; exact ⟨t, ht, h⟩

theorem foldl_wrap_eq (ts : List Task) (a : Int)
    (h : ∀ t ∈ ts, INT_MIN ≤ t.id ∧ t.id < INT_MAX) :
    ts.foldl (fun n t => max n (wrapInt (t.id + 1))) a
      = ts.foldl (fun n t => max n (t.id + 1)) a := by
  apply List.foldl_ext
  intro n t ht
  obtain ⟨h1, h2⟩ := h t ht
  rw [wrapInt_eq (by omega) (by omega)]

theorem deleteTask_found {m : TaskManager} {taskId : Int}
    (h : ∃ t ∈ m.tasks, t.id = taskId) :
    ∃ pre x post, m.tasks = pre ++ x :: post ∧ x.id = taskId ∧
      (∀ u ∈ pre, u.id ≠ taskId) ∧ (deleteTask m taskId).tasks = pre ++ post := by
  obtain ⟨t, ht, hid⟩ := h
  have hfound : ∃ u ∈ m.tasks, (fun t : Task => t.id == taskId) u = true :=
    ⟨t, ht, by simp [hid]⟩
  obtain ⟨i, hi⟩ := find_if_isSome hfound
  obtain ⟨pre, x, post, hl, hlen, hx, hpre⟩ := find_if_some hi
  have hne : m.tasks.isEmpty = false := by
    rw [hl]; cases pre <;> rfl
  refine ⟨pre, x, post, hl, by simpa using hx, ?_, ?_⟩
  · intro u hu
    simpa using hpre u hu
  · unfold deleteTask
    rw [hne, hi]
    show m.tasks.eraseIdx i = pre ++ post
    rw [hl, ← hlen, eraseIdx_split]

/-- C3, as the code has it. For a store whose tasks are storable and have ids
below `INT_MAX`: `deleteTask` with the id of a task of the store removes the
first task with that id and no other; after `saveToFile` and `loadFromFile`
the store holds the tasks left, and `nextTaskId` is the greatest of 1 and
`id + 1` over the tasks left. It is greater than the deleted id exactly when
that id is below 1 or a task left has an id at least as large. It is not
smaller than the counter before the save exactly when that counter is at most
1 or a task left has an id of at least that counter minus one. The next task
added after the reload gets the restored `nextTaskId` as its id. -/
theorem reload_counter_after_delete (m m0 : TaskManager) (taskId : Int) (old : File)
    (hst : ∀ t ∈ m.tasks, t.Storable) (hmax : ∀ t ∈ m.tasks, t.id < INT_MAX)
    (hin : ∃ t ∈ m.tasks, t.id = taskId) :
    ∃ pre x post m1,
      m.tasks = pre ++ x :: post ∧ x.id = taskId ∧ (∀ u ∈ pre, u.id ≠ taskId) ∧
      (deleteTask m taskId).tasks = pre ++ post ∧
      loadFromFile m0 (saveToFile (deleteTask m taskId) true old) = some m1 ∧
      m1.tasks = pre ++ post ∧
      1 ≤ m1.nextTaskId ∧
      (∀ t ∈ pre ++ post, t.id + 1 ≤ m1.nextTaskId) ∧
      (m1.nextTaskId = 1 ∨ ∃ t ∈ pre ++ post, m1.nextTaskId = t.id + 1) ∧
      (taskId < m1.nextTaskId ↔ taskId < 1 ∨ ∃ t ∈ pre ++ post, taskId ≤ t.id) ∧
      (m.nextTaskId ≤ m1.nextTaskId ↔
        m.nextTaskId ≤ 1 ∨ ∃ t ∈ pre ++ post, m.nextTaskId ≤ t.id + 1) ∧
      ∀ input m2, addTask m1 input = some m2 →
        ∃ t : Task, m2.tasks = pre ++ post ++ [t] ∧ t.id = m1.nextTaskId := by
  obtain ⟨pre, x, post, hl, hx, hpre, hdel⟩ := deleteTask_found hin
  have hsub := (deleteTask_sublist m taskId).1.subset
  have hst1 : ∀ t ∈ (deleteTask m taskId).tasks, t.Storable := fun t ht => hst t (hsub ht)
  have hb : ∀ t ∈ (deleteTask m taskId).tasks, INT_MIN ≤ t.id ∧ t.id < INT_MAX :=
    fun t ht => ⟨(hst t (hsub ht)).2.2.2.2.1, hmax t (hsub ht)⟩
  have hload := loadFromFile_saveToFile (deleteTask m taskId) m0 old hst1
  rw [foldl_wrap_eq _ _ hb, hdel] at hload
  have hlow := (foldl_max_bound (pre ++ post) 1).1
  have hup := (foldl_max_bound (pre ++ post) 1).2
  have hatt := foldl_max_attained (pre ++ post) 1
  refine ⟨pre, x, post, _, hl, hx, hpre, hdel, hload, rfl, hlow, hup, hatt, ?_, ?_, ?_⟩
  · show taskId < (pre ++ post).foldl (fun n t => max n (t.id + 1)) 1 ↔ _
    constructor
    · intro h
      rcases hatt with h1 | ⟨t, ht, h1⟩
      · left; omega
      · right; exact ⟨t, ht, by omega⟩
    · rintro (h | ⟨t, ht, h⟩)
      · omega
      · have := hup t ht
        omega
  · show m.nextTaskId ≤ (pre ++ post).foldl (fun n t => max n (t.id + 1)) 1 ↔ _
    constructor
    · intro h
      rcases hatt with h1 | ⟨t, ht, h1⟩
      · left; omega
      · right; exact ⟨t, ht, by omega⟩
    · rintro (h | ⟨t, ht, h⟩)
      · omega
      · have := hup t ht
        omega
  · intro input m2 h
    obtain ⟨t, h1, h2, _⟩ := addTask_some h
    exact ⟨t, h1, h2⟩

/-- Witness for `reload_counter_after_delete`: tasks 1, 2, 3 with the counter
at 4; task 2 is deleted, and the reload restores the counter 4. -/
theorem reload_counter_after_delete_witness :
    ∃ pre x post m1,
      [(⟨"a", "Low", false, 1⟩ : Task), ⟨"b", "High", false, 2⟩, ⟨"c", "Low", true, 3⟩]
        = pre ++ x :: post ∧ x.id = 2 ∧ (∀ u ∈ pre, u.id ≠ 2) ∧
      (deleteTask
        (TaskManager.mk [⟨"a", "Low", false, 1⟩, ⟨"b", "High", false, 2⟩, ⟨"c", "Low", true, 3⟩] 4)
        2).tasks = pre ++ post ∧
      loadFromFile (TaskManager.mk [] 1)
        (saveToFile (deleteTask
          (TaskManager.mk [⟨"a", "Low", false, 1⟩, ⟨"b", "High", false, 2⟩, ⟨"c", "Low", true, 3⟩] 4)
          2) true none) = some m1 ∧
      m1.tasks = pre ++ post ∧
      1 ≤ m1.nextTaskId ∧
      (∀ t ∈ pre ++ post, t.id + 1 ≤ m1.nextTaskId) ∧
      (m1.nextTaskId = 1 ∨ ∃ t ∈ pre ++ post, m1.nextTaskId = t.id + 1) ∧
      ((2 : Int) < m1.nextTaskId ↔ (2 : Int) < 1 ∨ ∃ t ∈ pre ++ post, 2 ≤ t.id) ∧
      ((4 : Int) ≤ m1.nextTaskId ↔ (4 : Int) ≤ 1 ∨ ∃ t ∈ pre ++ post, 4 ≤ t.id + 1) ∧
      ∀ input m2, addTask m1 input = some m2 →
        ∃ t : Task, m2.tasks = pre ++ post ++ [t] ∧ t.id = m1.nextTaskId :=
  reload_counter_after_delete
    (TaskManager.mk [⟨"a", "Low", false, 1⟩, ⟨"b", "High", false, 2⟩, ⟨"c", "Low", true, 3⟩] 4)
    (TaskManager.mk [] 1) 2 none (by unfold Task.Storable; decide) (by decide)
    ⟨⟨"b", "High", false, 2⟩, by decide, rfl⟩

/-- C3 fails as stated: with tasks 1, 2, 3 and the counter at 4, task 3 is
deleted, the store is saved and loaded; the restored counter is 3, smaller
than the counter 4 before the save and not greater than the deleted id 3, and
the next task added gets the id 3 again. -/
theorem reload_counter_counterexample :
    deleteTask
        (TaskManager.mk [⟨"a", "Low", false, 1⟩, ⟨"b", "High", false, 2⟩, ⟨"c", "Low", true, 3⟩] 4) 3
      = TaskManager.mk [⟨"a", "Low", false, 1⟩, ⟨"b", "High", false, 2⟩] 4 ∧
    loadFromFile (TaskManager.mk [] 1)
        (saveToFile (TaskManager.mk [⟨"a", "Low", false, 1⟩, ⟨"b", "High", false, 2⟩] 4) true none)
      = some (TaskManager.mk [⟨"a", "Low", false, 1⟩, ⟨"b", "High", false, 2⟩] 3) ∧
    (TaskManager.mk [⟨"a", "Low", false, 1⟩, ⟨"b", "High", false, 2⟩] 3).nextTaskId < 4 ∧
    ¬ ((3 : Int) < (TaskManager.mk [⟨"a", "Low", false, 1⟩, ⟨"b", "High", false, 2⟩] 3).nextTaskId) ∧
    addTask (TaskManager.mk [⟨"a", "Low", false, 1⟩, ⟨"b", "High", false, 2⟩] 3) ["d", "Low"]
      = some (TaskManager.mk
          [⟨"a", "Low", false, 1⟩, ⟨"b", "High", false, 2⟩, ⟨"d", "Low", false, 3⟩] 4) := by
  decide

/-! ## Evaluation on concrete inputs -/

/-- A line of the file and the task read from it. -/
theorem fromFileString_eval :
    Task.toFileString ⟨"buy milk", "High", false, 12⟩ = "buy milk|High|0|12" ∧
    Task.fromFileString "buy milk|High|0|12" = some ⟨"buy milk", "High", false, 12⟩ ∧
    Task.fromFileString "a|b|High|0|12" = some ⟨"a", "b", false, 0⟩ ∧
    Task.fromFileString "no separator" = none := by
  decide

/-- The constructor on a file of two lines, on a missing file, and on a file
with an empty line (`std::stoi` throws). -/
theorem init_eval :
    init (some "a|High|0|1\nb|Low|1|5\n")
      = some (TaskManager.mk [⟨"a", "High", false, 1⟩, ⟨"b", "Low", true, 5⟩] 6) ∧
    init none = some (TaskManager.mk [] 1) ∧
    init (some "a|High|0|1\n\n") = none := by
  decide

/-- The text of a row. -/
theorem row_eval :
    row ⟨"a", "Low", false, 1⟩
      = "1    a                                       Low            Pending\n" := by
  decide

/-- A session: two tasks are added (the first after an empty description and a
rejected priority), task 1 is deleted, task 2 is edited and marked completed. -/
theorem runOps_eval :
    runOps (TaskManager.mk [] 1)
        [Op.add ["", "x", "bad", "High"], Op.add ["y", "Low"], Op.delete 1,
          Op.edit 2 ["z", "Medium"], Op.markCompleted 2]
      = some (TaskManager.mk [⟨"z", "Medium", true, 2⟩] 3, [1, 2]) ∧
    addTask (TaskManager.mk [] 1) ["x", "bad"] = none := by
  decide

/-- A loaded id `INT_MAX`: `task.id + 1` wraps, the counter stays 1, and the
next task added gets the id 1, below the loaded id. -/
theorem loaded_counter_wraps :
    init (some "a|High|0|2147483647\n")
      = some (TaskManager.mk [⟨"a", "High", false, 2147483647⟩] 1) := by
  decide

end TaskManager
